import Mathlib

/-!
Verification of the CrossStitchPatterns core pipeline
(`app/domain/services/*` and `app/domain/model/pattern.py`).

Real-valued arithmetic of the Python source (IEEE doubles) is embedded as
exact rational (`ℚ`) arithmetic; machine integers are `Nat`/`Int`; functions
that raise `ValueError`/`InvalidFabricParametersError` are embedded as
`Option`-returning functions (`none` = raise).

The fixed DMC catalog (`app/domain/data/dmc_colors.py`, 489 entries) is not
part of the sources available here; everything that depends on it is
parameterized by an arbitrary catalog, and concrete instantiations use a
small catalog modelled from the spec.
-/

set_option maxHeartbeats 4000000
set_option maxRecDepth 4000

/-- An sRGB color: three integer channels (the Python `RGB = Tuple[int,int,int]`). -/
abbrev RGB := Nat × Nat × Nat

/- ----------------------------------------------------------------
   Generic list helpers shared by several services.
   ---------------------------------------------------------------- -/

/-- First-occurrence deduplication: the iteration order of a Python `set`
insertion / `Counter` keys (first occurrence wins).  `seen` accumulates the
values already emitted. -/
def firstDedupGo {α : Type} [DecidableEq α] (seen : List α) : List α → List α
  | [] => []
  | a :: l => if a ∈ seen then firstDedupGo seen l else a :: firstDedupGo (a :: seen) l

/-- Distinct values of `l` in order of first occurrence. -/
def firstDedup {α : Type} [DecidableEq α] (l : List α) : List α :=
  firstDedupGo [] l

/-- `np.argmin` inner loop: index of the first strict minimum. -/
def argminGo : List ℚ → Nat → ℚ → Nat → Nat
  | [], _, _, best => best
  | x :: rest, i, bv, best =>
    if x < bv then argminGo rest (i + 1) x i else argminGo rest (i + 1) bv best

/-- `np.argmin` over a list of distances: first index attaining the minimum
(`0` for the empty list, which `np.argmin` rejects; callers guard this). -/
def argminIdx : List ℚ → Nat
  | [] => 0
  | x :: rest => argminGo rest 1 x 0

theorem argminGo_lt {N : Nat} :
    ∀ (rest : List ℚ) (i : Nat) (bv : ℚ) (best : Nat),
      best < N → i + rest.length ≤ N → argminGo rest i bv best < N := by
  intro rest
  induction rest with
  | nil => intro i bv best hb _; simpa [argminGo] using hb
  | cons x xs ih =>
      intro i bv best hb hlen
      simp only [argminGo]
      by_cases hx : x < bv
      · simp only [hx, if_true]
        exact ih (i + 1) x i (by simp at hlen; omega) (by simp at hlen ⊢; omega)
      · simp only [hx, if_false]
        exact ih (i + 1) bv best hb (by simp at hlen ⊢; omega)

theorem argminIdx_lt (l : List ℚ) (h : l ≠ []) : argminIdx l < l.length := by
  cases l with
  | nil => exact absurd rfl h
  | cons x rest =>
      simp only [argminIdx, List.length_cons]
      exact argminGo_lt rest 1 x 0 (Nat.succ_pos _) (by omega)

/-- Position of the first occurrence of `d` in a list (a Python
`dict` built by `enumerate` over a duplicate-free list, or `list.index`). -/
def posOf (d : Nat) : List Nat → Option Nat
  | [] => none
  | a :: l => if a = d then some 0 else (posOf d l).map (· + 1)

theorem posOf_lt_length (d : Nat) :
    ∀ (l : List Nat) (p : Nat), posOf d l = some p → p < l.length := by
  intro l
  induction l with
  | nil => intro p h; simp [posOf] at h
  | cons a t ih =>
      intro p h
      simp only [posOf] at h
      by_cases ha : a = d
      · rw [if_pos ha] at h
        cases h
        simp
      · rw [if_neg ha, Option.map_eq_some'] at h
        obtain ⟨q, hq, rfl⟩ := h
        have := ih q hq
        simp only [List.length_cons]
        omega

theorem posOf_eq_none_iff (d : Nat) (l : List Nat) : posOf d l = none ↔ d ∉ l := by
  induction l with
  | nil => simp [posOf]
  | cons a t ih =>
      simp only [posOf, List.mem_cons]
      by_cases ha : a = d
      · simp [ha]
      · rw [if_neg ha, Option.map_eq_none', ih]
        constructor
        · intro h hmem
          rcases hmem with h1 | h2
          · exact ha h1.symm
          · exact h h2
        · intro h hmem
          exact h (Or.inr hmem)

/- ----------------------------------------------------------------
   Floss / skein estimation (`app/domain/services/floss.py`).
   ---------------------------------------------------------------- -/

/-- One entry of the per-color stitch tally (`stitch_count.ColorStitchCount`). -/
structure ColorStitchCount where
  palette_index : Int
  count : Int
deriving DecidableEq, Repr

/-- Per-color floss estimate (`floss.ColorFlossEstimate`). -/
structure ColorFlossEstimate where
  palette_index : Int
  stitch_count : Int
  skeins : Int
deriving DecidableEq, Repr

/-- `SKEIN_LENGTH_M = 8.0` -/
def SKEIN_LENGTH_M : ℚ := 8

/-- `STRANDS_PER_SKEIN = 6` -/
def STRANDS_PER_SKEIN : ℚ := 6

/-- `THREAD_CONSTANT_CM = 19.6` -/
def THREAD_CONSTANT_CM : ℚ := 196 / 10

/-- Sort key used by `compute_per_color_floss` (Python
`sorted(color_stitch_counts, key=lambda c: c.palette_index)`; both Timsort
and insertion sort are stable, so they agree). -/
def cscLE (a b : ColorStitchCount) : Prop := a.palette_index ≤ b.palette_index

instance : DecidableRel cscLE := fun a b => Int.decLe _ _

instance : IsTotal ColorStitchCount cscLE := ⟨fun a b => Int.le_total _ _⟩

instance : IsTrans ColorStitchCount cscLE := ⟨fun _ _ _ h1 h2 => le_trans h1 h2⟩

/-- `floss.compute_per_color_floss`.  `none` models raising
`InvalidFabricParametersError`. -/
def compute_per_color_floss (color_stitch_counts : List ColorStitchCount)
    (aida_count : Int) (num_strands : Int) (margin_ratio : ℚ) :
    Option (List ColorFlossEstimate) :=
  if aida_count ≤ 0 then none
  else if ¬(1 ≤ num_strands ∧ num_strands ≤ 6) then none
  else if margin_ratio < 0 then none
  else
    let thread_per_stitch_cm : ℚ := THREAD_CONSTANT_CM / (aida_count : ℚ)
    let single_strand_per_skein_cm : ℚ := SKEIN_LENGTH_M * 100 * STRANDS_PER_SKEIN / (num_strands : ℚ)
    let stitches_per_skein : ℚ := single_strand_per_skein_cm / thread_per_stitch_cm
    some ((List.insertionSort cscLE color_stitch_counts).map (fun csc =>
      { palette_index := csc.palette_index
        stitch_count := csc.count
        skeins := ⌈(csc.count : ℚ) * (1 + margin_ratio) / stitches_per_skein⌉ }))

/-- The exact skein formula of the claim, with capacity spelled out. -/
def skeinFormula (count : Int) (aida_count num_strands : Int) (margin_ratio : ℚ) : Int :=
  ⌈(count : ℚ) * (1 + margin_ratio) /
    (SKEIN_LENGTH_M * 100 * STRANDS_PER_SKEIN / (num_strands : ℚ) /
      (THREAD_CONSTANT_CM / (aida_count : ℚ)))⌉

/-- C8: `compute_per_color_floss` fails exactly for `aida_count ≤ 0`,
`num_strands ∉ [1,6]` or `margin_ratio < 0`; on success every entry's
`skeins` is `ceil(stitch_count * (1 + margin_ratio) / skein_capacity)` with
`skeins ≥ 1` whenever `stitch_count ≥ 1`, and the result is sorted ascending
by `palette_index` whatever the input order. -/
theorem compute_per_color_floss_spec (color_stitch_counts : List ColorStitchCount)
    (aida_count num_strands : Int) (margin_ratio : ℚ) :
    (compute_per_color_floss color_stitch_counts aida_count num_strands margin_ratio = none ↔
      (aida_count ≤ 0 ∨ ¬(1 ≤ num_strands ∧ num_strands ≤ 6) ∨ margin_ratio < 0)) ∧
    (∀ res, compute_per_color_floss color_stitch_counts aida_count num_strands margin_ratio = some res →
      (∀ e ∈ res, e.skeins = skeinFormula e.stitch_count aida_count num_strands margin_ratio) ∧
      (∀ e ∈ res, 1 ≤ e.stitch_count → 1 ≤ e.skeins) ∧
      List.Sorted (fun a b : ColorFlossEstimate => a.palette_index ≤ b.palette_index) res) := by
  constructor
  · unfold compute_per_color_floss
    by_cases h1 : aida_count ≤ 0
    · simp [h1]
    · by_cases h2 : ¬(1 ≤ num_strands ∧ num_strands ≤ 6)
      · simp [h1, h2]
      · by_cases h3 : margin_ratio < 0
        · simp [h1, h2, h3]
        · simp [h1, h2, h3]
  · intro res hres
    unfold compute_per_color_floss at hres
    by_cases h1 : aida_count ≤ 0
    · simp [h1] at hres
    by_cases h2 : ¬(1 ≤ num_strands ∧ num_strands ≤ 6)
    · simp [h1, h2] at hres
    by_cases h3 : margin_ratio < 0
    · simp [h1, h2, h3] at hres
    simp only [h1, h2, h3, if_false, Option.some.injEq] at hres
    push_neg at h2 h3
    have haida : (1 : Int) ≤ aida_count := by omega
    have haidaQ : (0 : ℚ) < (aida_count : ℚ) := by exact_mod_cast (by omega : (0:Int) < aida_count)
    have hstrQ : (0 : ℚ) < (num_strands : ℚ) := by exact_mod_cast (by omega : (0:Int) < num_strands)
    refine ⟨?_, ?_, ?_⟩
    · intro e he
      rw [← hres] at he
      simp only [List.mem_map] at he
      obtain ⟨csc, _, rfl⟩ := he
      simp [skeinFormula]
    · intro e he hcnt
      rw [← hres] at he
      simp only [List.mem_map] at he
      obtain ⟨csc, _, hcsc⟩ := he
      have hc1 : (1 : Int) ≤ csc.count := by
        have : e.stitch_count = csc.count := by rw [← hcsc]
        omega
      have hcQ : (1 : ℚ) ≤ (csc.count : ℚ) := by exact_mod_cast hc1
      have hcap : (0 : ℚ) < SKEIN_LENGTH_M * 100 * STRANDS_PER_SKEIN / (num_strands : ℚ) /
          (THREAD_CONSTANT_CM / (aida_count : ℚ)) := by
        have h196 : (0 : ℚ) < THREAD_CONSTANT_CM := by norm_num [THREAD_CONSTANT_CM]
        have hnum : (0 : ℚ) < SKEIN_LENGTH_M * 100 * STRANDS_PER_SKEIN := by
          norm_num [SKEIN_LENGTH_M, STRANDS_PER_SKEIN]
        exact div_pos (div_pos hnum hstrQ) (div_pos h196 haidaQ)
      have hpos : (0 : ℚ) < (csc.count : ℚ) * (1 + margin_ratio) /
          (SKEIN_LENGTH_M * 100 * STRANDS_PER_SKEIN / (num_strands : ℚ) /
            (THREAD_CONSTANT_CM / (aida_count : ℚ))) := by
        apply div_pos _ hcap
        have : (0 : ℚ) < 1 + margin_ratio := by linarith
        nlinarith
      have : e.skeins = ⌈(csc.count : ℚ) * (1 + margin_ratio) /
          (SKEIN_LENGTH_M * 100 * STRANDS_PER_SKEIN / (num_strands : ℚ) /
            (THREAD_CONSTANT_CM / (aida_count : ℚ)))⌉ := by
        rw [← hcsc]
      rw [this]
      exact Int.ceil_pos.mpr hpos
    · rw [← hres]
      have hsorted : List.Sorted cscLE (List.insertionSort cscLE color_stitch_counts) :=
        List.sorted_insertionSort cscLE color_stitch_counts
      rw [List.Sorted, List.pairwise_map]
      exact hsorted.imp (fun {a b} h => h)

/-- Witness for C8 at the spec's own floss example (1750 stitches per color,
14-count Aida, 2 strands, 20% margin: 2 skeins per color). -/
theorem compute_per_color_floss_spec_witness :
    ∀ e ∈ (compute_per_color_floss [⟨1, 1750⟩, ⟨0, 1750⟩] 14 2 (1/5)).getD [],
      e.skeins = skeinFormula e.stitch_count 14 2 (1/5) ∧ 1 ≤ e.skeins := by
  have hsome : compute_per_color_floss [⟨1, 1750⟩, ⟨0, 1750⟩] 14 2 (1/5) =
      some [⟨0, 1750, ⌈(1750 : ℚ) * (1 + 1/5) / (SKEIN_LENGTH_M * 100 * STRANDS_PER_SKEIN / (2 : ℚ) / (THREAD_CONSTANT_CM / (14 : ℚ)))⌉⟩,
            ⟨1, 1750, ⌈(1750 : ℚ) * (1 + 1/5) / (SKEIN_LENGTH_M * 100 * STRANDS_PER_SKEIN / (2 : ℚ) / (THREAD_CONSTANT_CM / (14 : ℚ)))⌉⟩] := by
    norm_num [compute_per_color_floss, List.insertionSort, List.orderedInsert, cscLE]
  have h := (compute_per_color_floss_spec [⟨1, 1750⟩, ⟨0, 1750⟩] 14 2 (1/5)).2 _ hsome
  intro e he
  rw [hsome] at he
  simp only [Option.getD_some] at he
  refine ⟨h.1 e he, h.2.1 e he ?_⟩
  rcases List.mem_cons.mp he with rfl | he2
  · norm_num
  · rcases List.mem_singleton.mp he2 with rfl
    norm_num

/- ----------------------------------------------------------------
   Image style classifier
   (`app/domain/services/image_mode_detector.py`,
    `DeterministicHeuristicImageModeDetector.detect`).
   ---------------------------------------------------------------- -/

/-- The three detected styles (`ImageMode = Literal["photo","drawing","pixel_art"]`). -/
inductive ImageMode
  | photo
  | drawing
  | pixel_art
deriving DecidableEq, Repr

/-- `ImageModeDetection` result dataclass. -/
structure ImageModeDetection where
  mode : ImageMode
  unique_color_count : Nat
  edge_density : ℚ
  avg_neighbor_diff : ℚ
  flat_ratio : ℚ
deriving DecidableEq, Repr

/-- Pixel lookup `pixels[y][x]` (callers stay in bounds). -/
def pixelAt (pixels : List (List RGB)) (y x : Nat) : RGB :=
  (pixels.getD y []).getD x (0, 0, 0)

/-- `abs(r-nr) + abs(g-ng) + abs(b-nb)`, the sum-of-absolute channel diff. -/
def channelDiff (p q : RGB) : Nat :=
  ((p.1 : Int) - q.1).natAbs + ((p.2.1 : Int) - q.2.1).natAbs + ((p.2.2 : Int) - q.2.2).natAbs

/-- The (0, 1 or 2) neighbor diffs examined for pixel `(y,x)`: right neighbor
then below neighbor, exactly the two `if` blocks of the Python loop body. -/
def cellDiffs (pixels : List (List RGB)) (height width y x : Nat) : List Nat :=
  (if x + 1 < width then [channelDiff (pixelAt pixels y x) (pixelAt pixels y (x + 1))] else []) ++
  (if y + 1 < height then [channelDiff (pixelAt pixels y x) (pixelAt pixels (y + 1) x)] else [])

/-- `DeterministicHeuristicImageModeDetector.detect`.  The per-pixel loop is
rendered as per-cell diff lists summed over the raster scan; the float
accumulators only ever hold integer sums, so `Nat` totals are exact, and the
final densities are formed in `ℚ`. -/
def detect (pixels : List (List RGB)) : ImageModeDetection :=
  let height := pixels.length
  let width := (pixels.headD []).length
  if height = 0 ∨ width = 0 then
    ⟨ImageMode.photo, 0, 0, 0, 0⟩
  else
    let unique_color_count := (firstDedup pixels.flatten).length
    let cells := (List.range height).flatMap (fun y => (List.range width).map (fun x => (y, x)))
    let allDiffs := cells.map (fun yx => cellDiffs pixels height width yx.1 yx.2)
    let edge_count := (allDiffs.filter (fun ds => decide (60 < ds.foldl max 0))).length
    let diff_sum := (allDiffs.map List.sum).sum
    let total_pairs := (allDiffs.map List.length).sum
    let flat_pairs := (allDiffs.map (fun ds => (ds.filter (fun d => decide (d < 15))).length)).sum
    let total_pixels := height * width
    let edge_density : ℚ := (edge_count : ℚ) / (total_pixels : ℚ)
    let avg_neighbor_diff : ℚ := if 0 < total_pairs then (diff_sum : ℚ) / (total_pairs : ℚ) else 0
    let flat_ratio : ℚ := if 0 < total_pairs then (flat_pairs : ℚ) / (total_pairs : ℚ) else 0
    let mode := if unique_color_count ≤ 64 then ImageMode.pixel_art
      else if 3/10 < edge_density ∧ unique_color_count < 1000 then ImageMode.drawing
      else ImageMode.photo
    ⟨mode, unique_color_count, edge_density, avg_neighbor_diff, flat_ratio⟩

/-- C7: the classifier applies its rules in order with first match winning
(pixel_art if `unique_color_count ≤ 64`, else drawing if
`edge_density > 0.3` and `unique_color_count < 1000`, else photo), and an
empty grid (zero rows or zero columns) yields mode photo with all four
scores zero, without raising. -/
theorem detect_spec (pixels : List (List RGB)) (w : Nat)
    (hrect : ∀ row ∈ pixels, row.length = w) :
    (pixels.length ≠ 0 → w ≠ 0 →
      (detect pixels).mode =
        (if (detect pixels).unique_color_count ≤ 64 then ImageMode.pixel_art
         else if 3/10 < (detect pixels).edge_density ∧ (detect pixels).unique_color_count < 1000
           then ImageMode.drawing
         else ImageMode.photo)) ∧
    ((pixels.length = 0 ∨ w = 0) → detect pixels = ⟨ImageMode.photo, 0, 0, 0, 0⟩) := by
  have hw : pixels.length ≠ 0 → (pixels.headD []).length = w := by
    intro hne
    cases pixels with
    | nil => exact absurd rfl hne
    | cons r t => exact hrect r (List.mem_cons_self r t)
  constructor
  · intro h1 h2
    have hcond : ¬(pixels.length = 0 ∨ (pixels.headD []).length = 0) := by
      rw [hw h1]; tauto
    simp only [detect, if_neg hcond]
  · intro h
    rcases h with h | h
    · simp only [detect, h]
      simp
    · by_cases h1 : pixels.length = 0
      · simp only [detect, h1]
        simp
      · have : (pixels.headD []).length = 0 := by rw [hw h1, h]
        simp only [detect, this]
        simp

/-- Witness for C7: a 1×2 black/white grid (2 unique colors, classified
pixel_art by the first rule). -/
theorem detect_spec_witness :
    (detect [[(0, 0, 0), (255, 255, 255)]]).mode =
      (if (detect [[(0, 0, 0), (255, 255, 255)]]).unique_color_count ≤ 64 then ImageMode.pixel_art
       else if 3/10 < (detect [[(0, 0, 0), (255, 255, 255)]]).edge_density ∧
           (detect [[(0, 0, 0), (255, 255, 255)]]).unique_color_count < 1000
         then ImageMode.drawing
       else ImageMode.photo) :=
  (detect_spec [[(0, 0, 0), (255, 255, 255)]] 2
      (by intro row hrow; simp at hrow; subst hrow; rfl)).1
    (by simp) (by simp)

/- ----------------------------------------------------------------
   Confetti reduction (`app/domain/services/confetti.py`,
   `reduce_confetti`), pure value-level model.
   ---------------------------------------------------------------- -/

/-- The fixed raster scan of neighbor offsets: `dr in (-1,0,1)`,
`dc in (-1,0,1)`, skipping `(0,0)`. -/
def offsets : List (Int × Int) :=
  [(-1, -1), (-1, 0), (-1, 1), (0, -1), (0, 1), (1, -1), (1, 0), (1, 1)]

/-- `cells[r][c]` (callers stay in bounds). -/
def cellAt (cells : List (List Nat)) (r c : Nat) : Nat :=
  (cells.getD r []).getD c 0

/-- The in-bounds 8-connected neighbor values of `(r,c)`, in offset scan
order (the Python `neighbors` list). -/
def neighborVals (cells : List (List Nat)) (rows cols : Nat) (r c : Nat) : List Nat :=
  offsets.filterMap (fun d =>
    let nr : Int := (r : Int) + d.1
    let nc : Int := (c : Int) + d.2
    if 0 ≤ nr ∧ nr < (rows : Int) ∧ 0 ≤ nc ∧ nc < (cols : Int) then
      some (cellAt cells nr.toNat nc.toNat)
    else none)

/-- Scan loop of `Counter(neighbors).most_common(1)[0]`: keep the current
best `(value, count)` pair, replacing it only on a strictly larger count, so
the first-encountered value of maximal count wins. -/
def firstModeGo (full : List Nat) : List Nat → Nat × Nat → Nat × Nat
  | [], best => best
  | x :: rest, best =>
    firstModeGo full rest (if best.2 < full.count x then (x, full.count x) else best)

/-- `(mode_color, mode_count)` of a neighbor list, ties broken by first
occurrence (`(0, 0)` on the empty list, which callers exclude). -/
def firstMode (l : List Nat) : Nat × Nat := firstModeGo l l (0, 0)

/-- Body of the per-cell update of one pass: replace the cell with the
neighbor mode only when it has at least 3 neighbors, the mode differs from
the current value and the mode count is at least 5. -/
def newCellVal (cells : List (List Nat)) (rows cols r c : Nat) : Nat :=
  let neighbors := neighborVals cells rows cols r c
  let cur := cellAt cells r c
  if neighbors.length < 3 then cur
  else
    let m := firstMode neighbors
    if cur ≠ m.1 ∧ 5 ≤ m.2 then m.1 else cur

/-- One pass: a fresh grid, every cell computed from the pass-start grid
(the Python `new_cells` copy written while only `cells` is read). -/
def confettiPass (rows cols : Nat) (cells : List (List Nat)) : List (List Nat) :=
  (List.range rows).map (fun r => (List.range cols).map (fun c => newCellVal cells rows cols r c))

/-- `confetti.reduce_confetti`, for the rectangular grids produced by
callers (`rows`/`cols` are measured once, before the passes). -/
def reduce_confetti (cells : List (List Nat)) (num_passes : Nat) : List (List Nat) :=
  (confettiPass cells.length (cells.headD []).length)^[num_passes] cells

/-- `m` is the first-encountered value of maximal multiplicity in `l`: it
splits `l` as `p ++ m :: q` where every value's count is at most `m`'s and
every value occurring in the prefix `p` has a strictly smaller count. -/
def FirstMaxMode (l : List Nat) (m : Nat) : Prop :=
  ∃ p q, l = p ++ m :: q ∧ (∀ x ∈ l, l.count x ≤ l.count m) ∧ ∀ x ∈ p, l.count x < l.count m

/-- Invariant of the `firstModeGo` scan after having consumed `pre`. -/
def ScanInv (full pre : List Nat) (best : Nat × Nat) : Prop :=
  (best = (0, 0) ∧ ∀ x ∈ pre, full.count x = 0) ∨
  (∃ p q, pre = p ++ best.1 :: q ∧ best.2 = full.count best.1 ∧ 0 < best.2 ∧
    (∀ x ∈ pre, full.count x ≤ best.2) ∧ (∀ x ∈ p, full.count x < best.2))

theorem firstModeGo_inv (full : List Nat) :
    ∀ (rest pre : List Nat) (best : Nat × Nat), ScanInv full pre best →
      ScanInv full (pre ++ rest) (firstModeGo full rest best) := by
  intro rest
  induction rest with
  | nil => intro pre best h; simpa [firstModeGo] using h
  | cons x xs ih =>
      intro pre best h
      have hstep : ScanInv full (pre ++ [x])
          (if best.2 < full.count x then (x, full.count x) else best) := by
        by_cases hx : best.2 < full.count x
        · rw [if_pos hx]
          right
          refine ⟨pre, [], rfl, rfl, by omega, ?_, ?_⟩
          · intro y hy
            rcases List.mem_append.mp hy with hy | hy
            · rcases h with ⟨_, h0⟩ | ⟨p, q, _, hcnt, _, hall, _⟩
              · rw [h0 y hy]; omega
              · have := hall y hy; omega
            · rcases List.mem_singleton.mp hy with rfl
              exact le_refl _
          · intro y hy
            rcases h with ⟨_, h0⟩ | ⟨p, q, _, hcnt, _, hall, _⟩
            · rw [h0 y hy]; omega
            · have := hall y hy; omega
        · rw [if_neg hx]
          rcases h with ⟨hb, h0⟩ | ⟨p, q, hpre, hcnt, hpos, hall, hstrict⟩
          · left
            refine ⟨hb, ?_⟩
            intro y hy
            rcases List.mem_append.mp hy with hy | hy
            · exact h0 y hy
            · rcases List.mem_singleton.mp hy with rfl
              rw [hb] at hx
              omega
          · right
            refine ⟨p, q ++ [x], by rw [hpre]; simp, hcnt, hpos, ?_, hstrict⟩
            intro y hy
            rcases List.mem_append.mp hy with hy | hy
            · exact hall y hy
            · rcases List.mem_singleton.mp hy with rfl
              omega
      have := ih (pre ++ [x]) _ hstep
      simpa [firstModeGo, List.append_assoc] using this

theorem firstMode_spec (l : List Nat) (h : l ≠ []) :
    FirstMaxMode l (firstMode l).1 ∧ (firstMode l).2 = l.count (firstMode l).1 := by
  have hinv := firstModeGo_inv l l [] (0, 0) (Or.inl ⟨rfl, by simp⟩)
  simp only [List.nil_append] at hinv
  rcases hinv with ⟨_, h0⟩ | ⟨p, q, hsplit, hcnt, _, hall, hstrict⟩
  · exfalso
    cases l with
    | nil => exact h rfl
    | cons a t =>
        have hz : List.count a (a :: t) = 0 := h0 a (List.mem_cons_self a t)
        rw [List.count_eq_zero] at hz
        exact hz (List.mem_cons_self a t)
  · exact ⟨⟨p, q, hsplit, fun x hx => hcnt ▸ hall x hx, fun x hx => hcnt ▸ hstrict x hx⟩, hcnt⟩

theorem firstMode_mem (l : List Nat) (h : l ≠ []) : (firstMode l).1 ∈ l := by
  obtain ⟨⟨p, q, hsplit, _, _⟩, _⟩ := firstMode_spec l h
  have hmem : (firstMode l).1 ∈ p ++ (firstMode l).1 :: q := by simp
  rw [← hsplit] at hmem
  exact hmem

/-- Two first-encountered maximal values are the same value. -/
theorem firstMaxMode_unique (l : List Nat) (m1 m2 : Nat)
    (h1 : FirstMaxMode l m1) (h2 : FirstMaxMode l m2) : m1 = m2 := by
  obtain ⟨p1, q1, e1, hall1, hstrict1⟩ := h1
  obtain ⟨p2, q2, e2, hall2, hstrict2⟩ := h2
  have hm1 : m1 ∈ l := by rw [e1]; simp
  have hm2 : m2 ∈ l := by rw [e2]; simp
  have hcc : l.count m1 = l.count m2 :=
    le_antisymm (hall2 m1 hm1) (hall1 m2 hm2)
  have hg1 : l[p1.length]? = some m1 := by
    rw [e1, List.getElem?_append_right (le_refl _)]
    simp
  have hg2 : l[p2.length]? = some m2 := by
    rw [e2, List.getElem?_append_right (le_refl _)]
    simp
  rcases Nat.lt_trichotomy p1.length p2.length with hlt | heq | hgt
  · exfalso
    have : p2[p1.length]? = some m1 := by
      rw [e2, List.getElem?_append_left hlt] at hg1
      exact hg1
    obtain ⟨hb, he⟩ := List.getElem?_eq_some_iff.mp this
    have : m1 ∈ p2 := he ▸ List.getElem_mem hb
    have := hstrict2 m1 this
    omega
  · rw [heq] at hg1
    rw [hg1] at hg2
    exact Option.some_injective _ hg2
  · exfalso
    have : p1[p2.length]? = some m2 := by
      rw [e1, List.getElem?_append_left hgt] at hg2
      exact hg2
    obtain ⟨hb, he⟩ := List.getElem?_eq_some_iff.mp this
    have : m2 ∈ p1 := he ▸ List.getElem_mem hb
    have := hstrict1 m2 this
    omega

theorem cellAt_confettiPass (g : List (List Nat)) (rows cols r c : Nat)
    (hr : r < rows) (hc : c < cols) :
    cellAt (confettiPass rows cols g) r c = newCellVal g rows cols r c := by
  have h1 : (confettiPass rows cols g).getD r [] =
      (List.range cols).map (fun c => newCellVal g rows cols r c) := by
    unfold confettiPass
    rw [List.getD_eq_getElem?_getD, List.getElem?_map, List.getElem?_range hr]
    rfl
  unfold cellAt
  rw [h1, List.getD_eq_getElem?_getD, List.getElem?_map, List.getElem?_range hc]
  rfl

/-- C5: each pass of `reduce_confetti` recomputes every cell from the grid
state at the pass's start, the whole reduction iterating the pass
`num_passes` times; a cell's value changes in a pass exactly when it has at
least 3 in-bounds neighbors whose mode (ties broken by first occurrence in
the fixed offset scan) differs from its value and occurs in at least 5 of
the examined neighbors, the new value being that mode. -/
theorem reduce_confetti_pass_spec (cells : List (List Nat)) (num_passes : Nat) :
    reduce_confetti cells num_passes =
      (confettiPass cells.length (cells.headD []).length)^[num_passes] cells ∧
    ∀ (g : List (List Nat)) (rows cols r c : Nat), r < rows → c < cols →
      (cellAt (confettiPass rows cols g) r c ≠ cellAt g r c →
        3 ≤ (neighborVals g rows cols r c).length ∧
        FirstMaxMode (neighborVals g rows cols r c) (cellAt (confettiPass rows cols g) r c) ∧
        5 ≤ (neighborVals g rows cols r c).count (cellAt (confettiPass rows cols g) r c)) ∧
      (∀ m, 3 ≤ (neighborVals g rows cols r c).length →
        FirstMaxMode (neighborVals g rows cols r c) m →
        m ≠ cellAt g r c →
        5 ≤ (neighborVals g rows cols r c).count m →
        cellAt (confettiPass rows cols g) r c = m) := by
  refine ⟨rfl, ?_⟩
  intro g rows cols r c hr hc
  rw [cellAt_confettiPass g rows cols r c hr hc]
  constructor
  · intro hne
    unfold newCellVal at hne ⊢
    by_cases hlen : (neighborVals g rows cols r c).length < 3
    · rw [if_pos hlen] at hne
      exact absurd rfl hne
    · rw [if_neg hlen] at hne ⊢
      have hnonnil : neighborVals g rows cols r c ≠ [] := by
        intro hnil
        rw [hnil] at hlen
        simp at hlen
      obtain ⟨hfmm, hcnt⟩ := firstMode_spec _ hnonnil
      by_cases hcond : cellAt g r c ≠ (firstMode (neighborVals g rows cols r c)).1 ∧
          5 ≤ (firstMode (neighborVals g rows cols r c)).2
      · rw [if_pos hcond]
        refine ⟨by omega, hfmm, ?_⟩
        rw [← hcnt]
        exact hcond.2
      · rw [if_neg hcond] at hne
        exact absurd rfl hne
  · intro m hlen hfmm hmne hcnt5
    unfold newCellVal
    rw [if_neg (by omega)]
    have hnonnil : neighborVals g rows cols r c ≠ [] := by
      intro hnil
      rw [hnil] at hlen
      simp at hlen
    obtain ⟨hfmm0, hcnt0⟩ := firstMode_spec _ hnonnil
    have hm : (firstMode (neighborVals g rows cols r c)).1 = m :=
      firstMaxMode_unique _ _ _ hfmm0 hfmm
    rw [if_pos ⟨by rw [hm]; exact fun h => hmne h.symm, by rw [hcnt0, hm]; exact hcnt5⟩]
    exact hm

/-- Witness for C5: in a 3×3 grid a single center pixel surrounded by 8
identical differing neighbors is replaced by the surrounding color. -/
theorem reduce_confetti_pass_spec_witness :
    cellAt (confettiPass 3 3 [[0, 0, 0], [0, 1, 0], [0, 0, 0]]) 1 1 = 0 := by
  have h := (reduce_confetti_pass_spec [[0, 0, 0], [0, 1, 0], [0, 0, 0]] 1).2
      [[0, 0, 0], [0, 1, 0], [0, 0, 0]] 3 3 1 1 (by decide) (by decide)
  exact h.2 0 (by decide)
    ⟨[], [0, 0, 0, 0, 0, 0, 0], by decide, by decide, by decide⟩
    (by decide) (by decide)

theorem length_confettiPass (rows cols : Nat) (g : List (List Nat)) :
    (confettiPass rows cols g).length = rows := by
  simp [confettiPass]

theorem row_length_confettiPass (rows cols : Nat) (g : List (List Nat)) :
    ∀ row ∈ confettiPass rows cols g, row.length = cols := by
  intro row hrow
  simp only [confettiPass, List.mem_map] at hrow
  obtain ⟨r, _, rfl⟩ := hrow
  simp

theorem cellAt_mem_flatten (g : List (List Nat)) (rows cols r c : Nat)
    (hlen : g.length = rows) (hrow : ∀ row ∈ g, row.length = cols)
    (hr : r < rows) (hc : c < cols) :
    cellAt g r c ∈ g.flatten := by
  have hrlt : r < g.length := by omega
  have hgr : g.getD r [] = g[r] := by
    rw [List.getD_eq_getElem?_getD, List.getElem?_eq_getElem hrlt]
    rfl
  have hrowmem : g[r] ∈ g := List.getElem_mem hrlt
  have hrowlen : (g[r]).length = cols := hrow _ hrowmem
  have hclt : c < (g[r]).length := by omega
  have hcell : cellAt g r c = (g[r])[c] := by
    unfold cellAt
    rw [hgr, List.getD_eq_getElem?_getD, List.getElem?_eq_getElem hclt]
    rfl
  rw [List.mem_flatten, hcell]
  exact ⟨g[r], hrowmem, List.getElem_mem hclt⟩

theorem neighborVals_mem (g : List (List Nat)) (rows cols r c : Nat) :
    ∀ v ∈ neighborVals g rows cols r c,
      ∃ nr nc, nr < rows ∧ nc < cols ∧ v = cellAt g nr nc := by
  intro v hv
  rw [neighborVals, List.mem_filterMap] at hv
  obtain ⟨d, _, hsome⟩ := hv
  dsimp only at hsome
  by_cases hg : 0 ≤ (r : Int) + d.1 ∧ (r : Int) + d.1 < (rows : Int) ∧
      0 ≤ (c : Int) + d.2 ∧ (c : Int) + d.2 < (cols : Int)
  · rw [if_pos hg] at hsome
    refine ⟨((r : Int) + d.1).toNat, ((c : Int) + d.2).toNat, by omega, by omega, ?_⟩
    exact (Option.some_injective _ hsome).symm
  · rw [if_neg hg] at hsome
    exact absurd hsome (by simp)

theorem newCellVal_provenance (g : List (List Nat)) (rows cols r c : Nat) :
    newCellVal g rows cols r c = cellAt g r c ∨
    newCellVal g rows cols r c ∈ neighborVals g rows cols r c := by
  unfold newCellVal
  by_cases h3 : (neighborVals g rows cols r c).length < 3
  · rw [if_pos h3]
    exact Or.inl rfl
  · rw [if_neg h3]
    by_cases hcond : cellAt g r c ≠ (firstMode (neighborVals g rows cols r c)).1 ∧
        5 ≤ (firstMode (neighborVals g rows cols r c)).2
    · rw [if_pos hcond]
      refine Or.inr (firstMode_mem _ ?_)
      intro hnil
      rw [hnil] at h3
      simp at h3
    · rw [if_neg hcond]
      exact Or.inl rfl

theorem confettiPass_subset (g : List (List Nat)) (rows cols : Nat)
    (hlen : g.length = rows) (hrow : ∀ row ∈ g, row.length = cols) :
    ∀ row ∈ confettiPass rows cols g, ∀ v ∈ row, v ∈ g.flatten := by
  intro row hrowmem v hv
  simp only [confettiPass, List.mem_map] at hrowmem
  obtain ⟨r, hr, rfl⟩ := hrowmem
  rw [List.mem_range] at hr
  simp only [List.mem_map] at hv
  obtain ⟨c, hc, rfl⟩ := hv
  rw [List.mem_range] at hc
  rcases newCellVal_provenance g rows cols r c with h | h
  · rw [h]
    exact cellAt_mem_flatten g rows cols r c hlen hrow hr hc
  · obtain ⟨nr, nc, h1, h2, h3⟩ := neighborVals_mem g rows cols r c _ h
    rw [h3]
    exact cellAt_mem_flatten g rows cols nr nc hlen hrow h1 h2

/-- C10: confetti reduction never introduces a palette index absent from its
input: per pass each cell keeps its value or takes a value held by one of
its in-bounds neighbors in the pass-start grid; hence every output value
already occurs in the input grid, and any upper bound `K` on the input's
palette indices is preserved. -/
theorem reduce_confetti_preserves_range (cells : List (List Nat)) (num_passes w K : Nat)
    (hrect : ∀ row ∈ cells, row.length = w)
    (hK : ∀ row ∈ cells, ∀ v ∈ row, v < K) :
    (∀ (g : List (List Nat)) (rows cols r c : Nat),
        newCellVal g rows cols r c = cellAt g r c ∨
        newCellVal g rows cols r c ∈ neighborVals g rows cols r c) ∧
    (∀ row ∈ reduce_confetti cells num_passes, ∀ v ∈ row, ∃ row0 ∈ cells, v ∈ row0) ∧
    (∀ row ∈ reduce_confetti cells num_passes, ∀ v ∈ row, v < K) := by
  have key : ∀ row ∈ reduce_confetti cells num_passes, ∀ v ∈ row, v ∈ cells.flatten := by
    set rows := cells.length with hrows
    set cols := (cells.headD []).length with hcols
    have main : ∀ n, ((confettiPass rows cols)^[n] cells).length = rows ∧
        (∀ row ∈ (confettiPass rows cols)^[n] cells, row.length = cols) ∧
        (∀ row ∈ (confettiPass rows cols)^[n] cells, ∀ v ∈ row, v ∈ cells.flatten) := by
      intro n
      induction n with
      | zero =>
          refine ⟨rfl, ?_, ?_⟩
          · intro row hrow
            cases cells with
            | nil => simp at hrow
            | cons r0 t =>
                have : row.length = w := hrect row hrow
                have h0 : r0.length = w := hrect r0 (List.mem_cons_self r0 t)
                simp only [Function.iterate_zero, id_eq] at hrow
                rw [this, hcols]
                simp [List.headD, h0]
          · intro row hrow v hv
            rw [List.mem_flatten]
            exact ⟨row, hrow, hv⟩
      | succ n ih =>
          rw [Function.iterate_succ_apply']
          refine ⟨length_confettiPass _ _ _, row_length_confettiPass _ _ _, ?_⟩
          intro row hrow v hv
          have hsub := confettiPass_subset _ rows cols ih.1 ih.2.1 row hrow v hv
          rw [List.mem_flatten] at hsub
          obtain ⟨row0, hrow0, hv0⟩ := hsub
          exact ih.2.2 row0 hrow0 v hv0
    intro row hrow v hv
    exact (main num_passes).2.2 row hrow v hv
  refine ⟨fun g rows cols r c => newCellVal_provenance g rows cols r c, ?_, ?_⟩
  · intro row hrow v hv
    have := key row hrow v hv
    rw [List.mem_flatten] at this
    exact this
  · intro row hrow v hv
    have := key row hrow v hv
    rw [List.mem_flatten] at this
    obtain ⟨row0, hrow0, hv0⟩ := this
    exact hK row0 hrow0 v hv0

/-- Witness for C10: a 2×2 checkerboard with palette indices below 2 keeps
all indices below 2 after one reduction pass (which leaves it unchanged). -/
theorem reduce_confetti_preserves_range_witness :
    reduce_confetti [[0, 1], [1, 0]] 1 = [[0, 1], [1, 0]] ∧
    (∀ row ∈ reduce_confetti [[0, 1], [1, 0]] 1, ∀ v ∈ row, v < 2) :=
  ⟨by decide,
   (reduce_confetti_preserves_range [[0, 1], [1, 0]] 1 2 2
     (by intro row hrow
         simp only [List.mem_cons, List.not_mem_nil, or_false] at hrow
         rcases hrow with rfl | rfl <;> rfl)
     (by decide)).2.2⟩

/- ----------------------------------------------------------------
   Confetti reduction, object-identity (heap) model for the
   mutation/aliasing behavior of `reduce_confetti`.

   A Python list-of-rows is modelled as a list of row ids into a heap of
   row contents; `new_cells = [row[:] for row in cells]` allocates fresh
   ids at the end of the heap, and `new_cells[r][c] = mode_color` is an
   in-place write to the row behind one of those fresh ids.  All reads of
   `cells[nr][nc]` go through the live heap via the pass-start ids.
   ---------------------------------------------------------------- -/

/-- A heap of Python list objects holding rows of palette indices. -/
abbrev Heap := List (List Nat)

/-- Contents of the row object with id `i`. -/
def heapRow (h : Heap) (i : Nat) : List Nat := h.getD i []

/-- `cells[r][c]` read through the heap: `grid` holds the row ids. -/
def heapCellAt (h : Heap) (grid : List Nat) (r c : Nat) : Nat :=
  (heapRow h (grid.getD r 0)).getD c 0

/-- The neighbor scan of the heap model (same offsets, reads through the
pass-start row ids in the live heap). -/
def heapNeighborVals (h : Heap) (grid : List Nat) (rows cols r c : Nat) : List Nat :=
  offsets.filterMap (fun d =>
    let nr : Int := (r : Int) + d.1
    let nc : Int := (c : Int) + d.2
    if 0 ≤ nr ∧ nr < (rows : Int) ∧ 0 ≤ nc ∧ nc < (cols : Int) then
      some (heapCellAt h grid nr.toNat nc.toNat)
    else none)

/-- In-place write `heap[rowId][c] = v`. -/
def writeCell (h : Heap) (rowId c v : Nat) : Heap :=
  h.set rowId ((heapRow h rowId).set c v)

/-- Loop body of one pass for the cell `rc`: possibly one write into the
fresh row `newGrid[rc.1]`. -/
def passBody (rows cols : Nat) (oldGrid newGrid : List Nat) (h : Heap) (rc : Nat × Nat) : Heap :=
  let nbrs := heapNeighborVals h oldGrid rows cols rc.1 rc.2
  if nbrs.length < 3 then h
  else
    let m := firstMode nbrs
    if heapCellAt h oldGrid rc.1 rc.2 ≠ m.1 ∧ 5 ≤ m.2 then
      writeCell h (newGrid.getD rc.1 0) rc.2 m.1
    else h

/-- One pass over the heap: allocate fresh copies of all rows
(`[row[:] for row in cells]`), then run the raster loop, writing only into
the fresh rows, and continue with the fresh ids. -/
def confettiPassHeap (rows cols : Nat) (st : Heap × List Nat) : Heap × List Nat :=
  let h := st.1
  let grid := st.2
  let newIds := (List.range grid.length).map (fun i => h.length + i)
  let h1 := h ++ grid.map (fun id => heapRow h id)
  let pairs := (List.range rows).flatMap (fun r => (List.range cols).map (fun c => (r, c)))
  (pairs.foldl (passBody rows cols grid newIds) h1, newIds)

/-- `reduce_confetti` in the heap model: `rows`/`cols` measured once from
the input, then `num_passes` passes; with zero passes the input grid object
itself is returned. -/
def reduce_confetti_heap (h : Heap) (grid : List Nat) (num_passes : Nat) : Heap × List Nat :=
  let rows := grid.length
  let cols := if grid.length = 0 then 0 else (heapRow h (grid.headD 0)).length
  (confettiPassHeap rows cols)^[num_passes] (h, grid)

theorem heapRow_writeCell_ne (h : Heap) (i c v j : Nat) (hj : i ≠ j) :
    heapRow (writeCell h i c v) j = heapRow h j := by
  unfold writeCell heapRow
  rw [List.getD_eq_getElem?_getD, List.getElem?_set_ne hj, ← List.getD_eq_getElem?_getD]

theorem length_writeCell (h : Heap) (i c v : Nat) :
    (writeCell h i c v).length = h.length :=
  List.length_set h i _

theorem getD_range_map_add (Lb n r : Nat) (hr : r < n) :
    ((List.range n).map (fun i => Lb + i)).getD r 0 = Lb + r := by
  rw [List.getD_eq_getElem?_getD, List.getElem?_map, List.getElem?_range hr]
  rfl

theorem passBody_frame (rows cols : Nat) (oldGrid newGrid : List Nat) (L : Nat)
    (h : Heap) (rc : Nat × Nat) (hid : L ≤ newGrid.getD rc.1 0) :
    ∀ j, j < L → heapRow (passBody rows cols oldGrid newGrid h rc) j = heapRow h j := by
  intro j hj
  unfold passBody
  by_cases h3 : (heapNeighborVals h oldGrid rows cols rc.1 rc.2).length < 3
  · rw [if_pos h3]
  · rw [if_neg h3]
    by_cases hcond : heapCellAt h oldGrid rc.1 rc.2 ≠
        (firstMode (heapNeighborVals h oldGrid rows cols rc.1 rc.2)).1 ∧
        5 ≤ (firstMode (heapNeighborVals h oldGrid rows cols rc.1 rc.2)).2
    · rw [if_pos hcond]
      exact heapRow_writeCell_ne _ _ _ _ _ (by omega)
    · rw [if_neg hcond]

theorem passBody_length (rows cols : Nat) (oldGrid newGrid : List Nat)
    (h : Heap) (rc : Nat × Nat) :
    (passBody rows cols oldGrid newGrid h rc).length = h.length := by
  unfold passBody
  by_cases h3 : (heapNeighborVals h oldGrid rows cols rc.1 rc.2).length < 3
  · rw [if_pos h3]
  · rw [if_neg h3]
    by_cases hcond : heapCellAt h oldGrid rc.1 rc.2 ≠
        (firstMode (heapNeighborVals h oldGrid rows cols rc.1 rc.2)).1 ∧
        5 ≤ (firstMode (heapNeighborVals h oldGrid rows cols rc.1 rc.2)).2
    · rw [if_pos hcond]
      exact length_writeCell _ _ _ _
    · rw [if_neg hcond]

theorem foldl_passBody_frame (rows cols : Nat) (oldGrid newGrid : List Nat) (L : Nat)
    (hids : ∀ r, r < rows → L ≤ newGrid.getD r 0) :
    ∀ (pairs : List (Nat × Nat)) (h : Heap), (∀ p ∈ pairs, p.1 < rows) →
      ∀ j, j < L → heapRow (pairs.foldl (passBody rows cols oldGrid newGrid) h) j = heapRow h j := by
  intro pairs
  induction pairs with
  | nil => intro h _ j hj; rfl
  | cons x xs ih =>
      intro h hmem j hj
      rw [List.foldl_cons]
      rw [ih _ (fun p hp => hmem p (List.mem_cons_of_mem x hp)) j hj]
      exact passBody_frame rows cols oldGrid newGrid L h x
        (hids x.1 (hmem x (List.mem_cons_self x xs))) j hj

theorem foldl_passBody_length (rows cols : Nat) (oldGrid newGrid : List Nat) :
    ∀ (pairs : List (Nat × Nat)) (h : Heap),
      (pairs.foldl (passBody rows cols oldGrid newGrid) h).length = h.length := by
  intro pairs
  induction pairs with
  | nil => intro h; rfl
  | cons x xs ih =>
      intro h
      rw [List.foldl_cons, ih, passBody_length]

theorem confettiPassHeap_spec (rows cols : Nat) (st : Heap × List Nat)
    (hrows : rows ≤ st.2.length) :
    (∀ j, j < st.1.length → heapRow (confettiPassHeap rows cols st).1 j = heapRow st.1 j) ∧
    st.1.length ≤ (confettiPassHeap rows cols st).1.length ∧
    (confettiPassHeap rows cols st).2.length = st.2.length ∧
    (∀ id ∈ (confettiPassHeap rows cols st).2, st.1.length ≤ id) := by
  obtain ⟨h, grid⟩ := st
  simp only [confettiPassHeap]
  refine ⟨?_, ?_, by simp, ?_⟩
  · intro j hj
    rw [foldl_passBody_frame rows cols grid _ h.length ?_ _ _ ?_ j hj]
    · unfold heapRow
      rw [List.getD_append _ _ _ _ hj]
    · intro r hr
      rw [getD_range_map_add _ _ _ (by simp at hrows ⊢; omega)]
      omega
    · intro p hp
      rw [List.mem_flatMap] at hp
      obtain ⟨r, hr, hp⟩ := hp
      rw [List.mem_map] at hp
      obtain ⟨c, _, rfl⟩ := hp
      rw [List.mem_range] at hr
      exact hr
  · rw [foldl_passBody_length]
    simp
  · intro id hid
    rw [List.mem_map] at hid
    obtain ⟨i, _, rfl⟩ := hid
    omega

/-- Amended C9: for every heap, grid and number of passes, the reduction
leaves every pre-existing row object (in particular every row of the
caller's grid) holding exactly its pre-call contents, and for
`num_passes ≥ 1` the returned grid is a fresh structure: all its row ids
are newly allocated.  (With `num_passes = 0` the function returns the input
grid object itself — see the counterexample.) -/
theorem reduce_confetti_heap_frame (h : Heap) (grid : List Nat) (num_passes : Nat) :
    (∀ j, j < h.length → heapRow (reduce_confetti_heap h grid num_passes).1 j = heapRow h j) ∧
    (∀ id ∈ grid, id < h.length →
      heapRow (reduce_confetti_heap h grid num_passes).1 id = heapRow h id) ∧
    (1 ≤ num_passes → ∀ id ∈ (reduce_confetti_heap h grid num_passes).2, h.length ≤ id) := by
  set rows := grid.length with hrowsdef
  set cols := if grid.length = 0 then 0 else (heapRow h (grid.headD 0)).length with hcolsdef
  have main : ∀ n,
      grid.length ≤ ((confettiPassHeap rows cols)^[n] (h, grid)).2.length ∧
      h.length ≤ ((confettiPassHeap rows cols)^[n] (h, grid)).1.length ∧
      (∀ j, j < h.length →
        heapRow ((confettiPassHeap rows cols)^[n] (h, grid)).1 j = heapRow h j) ∧
      (1 ≤ n → ∀ id ∈ ((confettiPassHeap rows cols)^[n] (h, grid)).2, h.length ≤ id) := by
    intro n
    induction n with
    | zero => exact ⟨le_refl _, le_refl _, fun j hj => rfl, fun habs => absurd habs (by omega)⟩
    | succ n ih =>
        obtain ⟨ih1, ih2, ih3, _⟩ := ih
        have hspec := confettiPassHeap_spec rows cols ((confettiPassHeap rows cols)^[n] (h, grid))
          (by rw [hrowsdef]; exact ih1)
        rw [Function.iterate_succ_apply']
        refine ⟨?_, le_trans ih2 hspec.2.1, ?_, ?_⟩
        · rw [hspec.2.2.1]
          exact ih1
        · intro j hj
          exact (hspec.1 j (lt_of_lt_of_le hj ih2)).trans (ih3 j hj)
        · intro _ id hid
          exact le_trans ih2 (hspec.2.2.2 id hid)
  refine ⟨(main num_passes).2.2.1, ?_, (main num_passes).2.2.2⟩
  intro id _ hidlt
  exact (main num_passes).2.2.1 id hidlt

/-- Counterexample for C9 as stated: with `num_passes = 0` the returned
grid is the caller's grid object itself (same row ids), not a fresh
structure. -/
theorem reduce_confetti_heap_zero_passes_aliases :
    (reduce_confetti_heap [[5]] [0] 0).2 = [0] ∧
    ¬ (∀ id ∈ (reduce_confetti_heap [[5]] [0] 0).2, ([[5]] : Heap).length ≤ id) := by
  constructor
  · rfl
  · intro hfresh
    have h0 : (0 : Nat) ∈ (reduce_confetti_heap [[5]] [0] 0).2 := by
      show (0 : Nat) ∈ [0]
      simp
    have := hfresh 0 h0
    simp at this

/-- Witness for the amended C9 at a concrete heap and one pass. -/
theorem reduce_confetti_heap_frame_witness :
    heapRow (reduce_confetti_heap [[0, 1], [1, 0]] [0, 1] 1).1 0 = [0, 1] ∧
    ∀ id ∈ (reduce_confetti_heap [[0, 1], [1, 0]] [0, 1] 1).2,
      ([[0, 1], [1, 0]] : Heap).length ≤ id := by
  have h := reduce_confetti_heap_frame [[0, 1], [1, 0]] [0, 1] 1
  exact ⟨h.2.1 0 (by simp) (by simp), h.2.2 (le_refl 1)⟩

/- ----------------------------------------------------------------
   Page tiling (`app/domain/services/pattern_tiling.py`,
   `compute_tiles`).
   ---------------------------------------------------------------- -/

/-- One rectangular page tile, half-open cell ranges
(`pattern_tiling.PageTile`).  The center offsets are exact rationals
(`grid/2.0` is exact for any realistic grid size). -/
structure PageTile where
  page_index : Nat
  col_start : Nat
  col_end : Nat
  row_start : Nat
  row_end : Nat
  center_col : Option ℚ
  center_row : Option ℚ
deriving DecidableEq, Repr

/-- `pattern_tiling.TilingResult`. -/
structure TilingResult where
  tiles : List PageTile
  total_pages : Nat
  cols_per_page : Nat
  rows_per_page : Nat
deriving DecidableEq, Repr

/-- `math.ceil(a / b)` for positive integers. -/
def ceilDiv (a b : Nat) : Nat := (a + b - 1) / b

/-- The tile of tile-row `tr` and tile-column `tc` (the loop body of
`compute_tiles`, with the sequential `page_index` counter equal to
`tr * num_tile_cols + tc`). -/
def mkTile (w h cpp rpp ntc tr tc : Nat) : PageTile :=
  let row_start := tr * rpp
  let row_end := min (row_start + rpp) h
  let col_start := tc * cpp
  let col_end := min (col_start + cpp) w
  let c_col : Option ℚ :=
    if (col_start : ℚ) < (w : ℚ) / 2 ∧ (w : ℚ) / 2 ≤ (col_end : ℚ)
    then some ((w : ℚ) / 2 - (col_start : ℚ)) else none
  let c_row : Option ℚ :=
    if (row_start : ℚ) < (h : ℚ) / 2 ∧ (h : ℚ) / 2 ≤ (row_end : ℚ)
    then some ((h : ℚ) / 2 - (row_start : ℚ)) else none
  ⟨tr * ntc + tc, col_start, col_end, row_start, row_end, c_col, c_row⟩

/-- `pattern_tiling.compute_tiles`; `none` models raising `ValueError`. -/
def compute_tiles (grid_width grid_height cols_per_page rows_per_page : Int) :
    Option TilingResult :=
  if grid_width ≤ 0 ∨ grid_height ≤ 0 then none
  else if cols_per_page ≤ 0 ∨ rows_per_page ≤ 0 then none
  else
    let w := grid_width.toNat
    let h := grid_height.toNat
    let cpp := cols_per_page.toNat
    let rpp := rows_per_page.toNat
    let ntc := ceilDiv w cpp
    let ntr := ceilDiv h rpp
    some ⟨(List.range ntr).flatMap (fun tr => (List.range ntc).map (fun tc => mkTile w h cpp rpp ntc tr tc)),
          ntr * ntc, cpp, rpp⟩

/-- Membership of a grid cell in a tile's half-open ranges. -/
def inTile (t : PageTile) (x y : Nat) : Prop :=
  t.col_start ≤ x ∧ x < t.col_end ∧ t.row_start ≤ y ∧ y < t.row_end

theorem le_ceilDiv_mul (a b : Nat) (hb : 0 < b) : a ≤ ceilDiv a b * b := by
  unfold ceilDiv
  have h1 := Nat.mod_add_div (a + b - 1) b
  have h2 : (a + b - 1) % b < b := Nat.mod_lt _ hb
  have hc : (a + b - 1) / b * b = b * ((a + b - 1) / b) := Nat.mul_comm _ _
  rw [hc]
  generalize hm : b * ((a + b - 1) / b) = m at h1 ⊢
  omega

theorem lt_div_mul_add (x b : Nat) (hb : 0 < b) : x < x / b * b + b := by
  have h1 := Nat.mod_add_div x b
  have h2 : x % b < b := Nat.mod_lt _ hb
  have hc : x / b * b = b * (x / b) := Nat.mul_comm _ _
  rw [hc]
  generalize hm : b * (x / b) = m at h1 ⊢
  omega

theorem div_lt_ceilDiv (x a b : Nat) (hb : 0 < b) (hx : x < a) : x / b < ceilDiv a b := by
  rw [Nat.div_lt_iff_lt_mul hb]
  exact lt_of_lt_of_le hx (le_ceilDiv_mul a b hb)

theorem ceilDiv_pos (a b : Nat) (ha : 0 < a) (hb : 0 < b) : 0 < ceilDiv a b := by
  unfold ceilDiv
  exact Nat.div_pos (by omega) hb

theorem tiles_length {α : Type} (ntr ntc : Nat) (f : Nat → Nat → α) :
    ((List.range ntr).flatMap (fun tr => (List.range ntc).map (f tr))).length = ntr * ntc := by
  rw [List.length_flatMap]
  have : List.map (List.length ∘ fun tr => (List.range ntc).map (f tr)) (List.range ntr) =
      List.map (fun _ => ntc) (List.range ntr) := by
    apply List.map_congr_left
    intro a _
    simp
  rw [this, List.map_const', List.sum_replicate, List.length_range, smul_eq_mul]

theorem flatMap_range_getElem? {α : Type} (ntc : Nat) (f : Nat → Nat → α) :
    ∀ (ntr i j : Nat), i < ntr → j < ntc →
      ((List.range ntr).flatMap (fun tr => (List.range ntc).map (f tr)))[i * ntc + j]? =
        some (f i j) := by
  intro ntr
  induction ntr with
  | zero => intro i j hi _; omega
  | succ n ih =>
      intro i j hi hj
      rw [List.range_succ, List.flatMap_append]
      by_cases hin : i < n
      · rw [List.getElem?_append_left]
        · exact ih i j hin hj
        · rw [tiles_length n ntc f]
          calc i * ntc + j < i * ntc + ntc := by omega
            _ = (i + 1) * ntc := by ring
            _ ≤ n * ntc := Nat.mul_le_mul_right _ (by omega)
      · have hieq : i = n := by omega
        subst hieq
        rw [List.getElem?_append_right (by rw [tiles_length i ntc f]; exact Nat.le_add_right _ _)]
        rw [tiles_length i ntc f, Nat.add_sub_cancel_left]
        simp only [List.flatMap_cons, List.flatMap_nil, List.append_nil]
        rw [List.getElem?_map, List.getElem?_range hj]
        rfl

theorem mem_tiles_iff (w h cpp rpp ntc ntr : Nat) (t : PageTile) :
    t ∈ (List.range ntr).flatMap (fun tr => (List.range ntc).map (mkTile w h cpp rpp ntc tr)) ↔
      ∃ tr tc, tr < ntr ∧ tc < ntc ∧ t = mkTile w h cpp rpp ntc tr tc := by
  rw [List.mem_flatMap]
  constructor
  · rintro ⟨tr, htr, hmem⟩
    rw [List.mem_map] at hmem
    obtain ⟨tc, htc, rfl⟩ := hmem
    exact ⟨tr, tc, List.mem_range.mp htr, List.mem_range.mp htc, rfl⟩
  · rintro ⟨tr, tc, htr, htc, rfl⟩
    exact ⟨tr, List.mem_range.mpr htr, List.mem_map.mpr ⟨tc, List.mem_range.mpr htc, rfl⟩⟩

theorem compute_tiles_pos (W H c r : Int) (h1 : 0 < W) (h2 : 0 < H) (h3 : 0 < c) (h4 : 0 < r) :
    compute_tiles W H c r = some
      ⟨(List.range (ceilDiv H.toNat r.toNat)).flatMap (fun tr =>
          (List.range (ceilDiv W.toNat c.toNat)).map
            (fun tc => mkTile W.toNat H.toNat c.toNat r.toNat (ceilDiv W.toNat c.toNat) tr tc)),
        ceilDiv H.toNat r.toNat * ceilDiv W.toNat c.toNat, c.toNat, r.toNat⟩ := by
  unfold compute_tiles
  rw [if_neg (by omega), if_neg (by omega)]

theorem compute_tiles_none_iff (W H c r : Int) :
    compute_tiles W H c r = none ↔ W ≤ 0 ∨ H ≤ 0 ∨ c ≤ 0 ∨ r ≤ 0 := by
  unfold compute_tiles
  by_cases hwh : W ≤ 0 ∨ H ≤ 0
  · rw [if_pos hwh]
    simp
    omega
  · rw [if_neg hwh]
    by_cases hcr : c ≤ 0 ∨ r ≤ 0
    · rw [if_pos hcr]
      simp
      omega
    · rw [if_neg hcr]
      simp
      omega

theorem mkTile_disjoint (w h cpp rpp ntc tr1 tc1 tr2 tc2 x y : Nat)
    (hne : ¬(tr1 = tr2 ∧ tc1 = tc2))
    (ht1 : inTile (mkTile w h cpp rpp ntc tr1 tc1) x y)
    (ht2 : inTile (mkTile w h cpp rpp ntc tr2 tc2) x y) : False := by
  obtain ⟨a1, b1, c1, d1⟩ := ht1
  obtain ⟨a2, b2, c2, d2⟩ := ht2
  simp only [mkTile] at a1 b1 c1 d1 a2 b2 c2 d2
  have hb1 : x < tc1 * cpp + cpp := lt_of_lt_of_le b1 (min_le_left _ _)
  have hb2 : x < tc2 * cpp + cpp := lt_of_lt_of_le b2 (min_le_left _ _)
  have hd1 : y < tr1 * rpp + rpp := lt_of_lt_of_le d1 (min_le_left _ _)
  have hd2 : y < tr2 * rpp + rpp := lt_of_lt_of_le d2 (min_le_left _ _)
  have htc : tc1 = tc2 := by
    by_contra hcc
    rcases Nat.lt_or_ge tc1 tc2 with hlt | hge
    · have hstep : tc1 * cpp + cpp ≤ tc2 * cpp := by
        calc tc1 * cpp + cpp = (tc1 + 1) * cpp := (Nat.succ_mul tc1 cpp).symm
          _ ≤ tc2 * cpp := Nat.mul_le_mul_right _ hlt
      linarith
    · have hlt2 : tc2 < tc1 := by omega
      have hstep : tc2 * cpp + cpp ≤ tc1 * cpp := by
        calc tc2 * cpp + cpp = (tc2 + 1) * cpp := (Nat.succ_mul tc2 cpp).symm
          _ ≤ tc1 * cpp := Nat.mul_le_mul_right _ hlt2
      linarith
  have htr : tr1 = tr2 := by
    by_contra hcc
    rcases Nat.lt_or_ge tr1 tr2 with hlt | hge
    · have hstep : tr1 * rpp + rpp ≤ tr2 * rpp := by
        calc tr1 * rpp + rpp = (tr1 + 1) * rpp := (Nat.succ_mul tr1 rpp).symm
          _ ≤ tr2 * rpp := Nat.mul_le_mul_right _ hlt
      linarith
    · have hlt2 : tr2 < tr1 := by omega
      have hstep : tr2 * rpp + rpp ≤ tr1 * rpp := by
        calc tr2 * rpp + rpp = (tr2 + 1) * rpp := (Nat.succ_mul tr2 rpp).symm
          _ ≤ tr1 * rpp := Nat.mul_le_mul_right _ hlt2
      linarith
  exact hne ⟨htr, htc⟩

/-- C6: `compute_tiles` errors exactly on a non-positive dimension;
otherwise it returns `ceil(W/cols_per_page) * ceil(H/rows_per_page)` tiles
in row-major order with sequential `page_index` from 0, ends clamped to the
grid boundary, the tiles being pairwise disjoint half-open rectangles whose
union is exactly `[0,W) × [0,H)`; in particular `compute_tiles 32 49 32 49`
yields 1 tile and `compute_tiles 33 49 32 49` yields 2. -/
theorem compute_tiles_spec (grid_width grid_height cols_per_page rows_per_page : Int) :
    (compute_tiles grid_width grid_height cols_per_page rows_per_page = none ↔
      grid_width ≤ 0 ∨ grid_height ≤ 0 ∨ cols_per_page ≤ 0 ∨ rows_per_page ≤ 0) ∧
    (∀ res, compute_tiles grid_width grid_height cols_per_page rows_per_page = some res →
      res.tiles.length =
        ceilDiv grid_width.toNat cols_per_page.toNat * ceilDiv grid_height.toNat rows_per_page.toNat ∧
      (∀ i, i < res.tiles.length →
        res.tiles[i]? = some (mkTile grid_width.toNat grid_height.toNat cols_per_page.toNat
          rows_per_page.toNat (ceilDiv grid_width.toNat cols_per_page.toNat)
          (i / ceilDiv grid_width.toNat cols_per_page.toNat)
          (i % ceilDiv grid_width.toNat cols_per_page.toNat))) ∧
      (∀ (i : Nat) (t : PageTile), res.tiles[i]? = some t → t.page_index = i ∧
        t.col_end = min (t.col_start + cols_per_page.toNat) grid_width.toNat ∧
        t.row_end = min (t.row_start + rows_per_page.toNat) grid_height.toNat) ∧
      (∀ t1 ∈ res.tiles, ∀ t2 ∈ res.tiles, t1 ≠ t2 →
        ∀ x y : Nat, ¬(inTile t1 x y ∧ inTile t2 x y)) ∧
      (∀ x y : Nat, (x < grid_width.toNat ∧ y < grid_height.toNat) ↔
        ∃ t ∈ res.tiles, inTile t x y)) ∧
    (∀ res, compute_tiles 32 49 32 49 = some res → res.tiles.length = 1) ∧
    compute_tiles 32 49 32 49 ≠ none ∧
    (∀ res, compute_tiles 33 49 32 49 = some res → res.tiles.length = 2) ∧
    compute_tiles 33 49 32 49 ≠ none := by
  refine ⟨compute_tiles_none_iff _ _ _ _, ?_, ?_, ?_, ?_, ?_⟩
  · intro res hres
    have hnn : compute_tiles grid_width grid_height cols_per_page rows_per_page ≠ none := by
      rw [hres]; simp
    rw [ne_eq, compute_tiles_none_iff] at hnn
    push_neg at hnn
    obtain ⟨hW, hH, hc, hr⟩ := hnn
    rw [compute_tiles_pos _ _ _ _ hW hH hc hr] at hres
    have hres' := Option.some_injective _ hres
    subst hres'
    set w := grid_width.toNat with hwdef
    set h := grid_height.toNat with hhdef
    set cpp := cols_per_page.toNat with hcppdef
    set rpp := rows_per_page.toNat with hrppdef
    set ntc := ceilDiv w cpp with hntcdef
    set ntr := ceilDiv h rpp with hntrdef
    have hw0 : 0 < w := by omega
    have hh0 : 0 < h := by omega
    have hcpp0 : 0 < cpp := by omega
    have hrpp0 : 0 < rpp := by omega
    have hntc0 : 0 < ntc := ceilDiv_pos w cpp hw0 hcpp0
    have hlen : ((List.range ntr).flatMap (fun tr =>
        (List.range ntc).map (fun tc => mkTile w h cpp rpp ntc tr tc))).length = ntr * ntc :=
      tiles_length ntr ntc _
    have hget : ∀ i, i < ntr * ntc →
        ((List.range ntr).flatMap (fun tr =>
          (List.range ntc).map (fun tc => mkTile w h cpp rpp ntc tr tc)))[i]? =
          some (mkTile w h cpp rpp ntc (i / ntc) (i % ntc)) := by
      intro i hi
      have hdiv : i / ntc < ntr := by
        rw [Nat.div_lt_iff_lt_mul hntc0]
        omega
      have hmod : i % ntc < ntc := Nat.mod_lt _ hntc0
      have hidx : i / ntc * ntc + i % ntc = i := by
        rw [Nat.mul_comm]
        exact Nat.div_add_mod i ntc
      conv_lhs => rw [← hidx]
      exact flatMap_range_getElem? ntc _ ntr (i / ntc) (i % ntc) hdiv hmod
    refine ⟨by rw [hlen, Nat.mul_comm], ?_, ?_, ?_, ?_⟩
    · intro i hi
      rw [hlen] at hi
      exact hget i hi
    · intro i t ht
      have hibound : i < ntr * ntc := by
        by_contra hge
        rw [List.getElem?_eq_none (by rw [hlen]; omega)] at ht
        exact Option.noConfusion ht
      rw [hget i hibound] at ht
      have ht' := Option.some_injective _ ht
      subst ht'
      refine ⟨?_, rfl, rfl⟩
      show i / ntc * ntc + i % ntc = i
      rw [Nat.mul_comm]
      exact Nat.div_add_mod i ntc
    · intro t1 ht1 t2 ht2 hne x y hboth
      rw [mem_tiles_iff] at ht1 ht2
      obtain ⟨tr1, tc1, _, _, rfl⟩ := ht1
      obtain ⟨tr2, tc2, _, _, rfl⟩ := ht2
      exact mkTile_disjoint w h cpp rpp ntc tr1 tc1 tr2 tc2 x y
        (by rintro ⟨rfl, rfl⟩; exact hne rfl) hboth.1 hboth.2
    · intro x y
      constructor
      · rintro ⟨hx, hy⟩
        refine ⟨mkTile w h cpp rpp ntc (y / rpp) (x / cpp), ?_, ?_⟩
        · rw [mem_tiles_iff]
          exact ⟨y / rpp, x / cpp, div_lt_ceilDiv y h rpp hrpp0 hy,
            div_lt_ceilDiv x w cpp hcpp0 hx, rfl⟩
        · refine ⟨Nat.div_mul_le_self x cpp, ?_, Nat.div_mul_le_self y rpp, ?_⟩
          · exact lt_min (lt_div_mul_add x cpp hcpp0) hx
          · exact lt_min (lt_div_mul_add y rpp hrpp0) hy
      · rintro ⟨t, hmem, hin⟩
        rw [mem_tiles_iff] at hmem
        obtain ⟨tr, tc, _, _, rfl⟩ := hmem
        obtain ⟨_, hb, _, hd⟩ := hin
        constructor
        · exact lt_of_lt_of_le hb (min_le_right _ _)
        · exact lt_of_lt_of_le hd (min_le_right _ _)
  · intro res hres
    rw [compute_tiles_pos 32 49 32 49 (by norm_num) (by norm_num) (by norm_num) (by norm_num)] at hres
    have hres' := Option.some_injective _ hres
    subst hres'
    rw [tiles_length]
    decide
  · rw [compute_tiles_pos 32 49 32 49 (by norm_num) (by norm_num) (by norm_num) (by norm_num)]
    simp
  · intro res hres
    rw [compute_tiles_pos 33 49 32 49 (by norm_num) (by norm_num) (by norm_num) (by norm_num)] at hres
    have hres' := Option.some_injective _ hres
    subst hres'
    rw [tiles_length]
    decide
  · rw [compute_tiles_pos 33 49 32 49 (by norm_num) (by norm_num) (by norm_num) (by norm_num)]
    simp

/-- The tiling of the spec's 60×45 example with 32×49 cells per page. -/
def tiling6045 : TilingResult :=
  ⟨[⟨0, 0, 32, 0, 45, some 30, some (45/2)⟩,
    ⟨1, 32, 60, 0, 45, none, some (45/2)⟩], 2, 32, 49⟩

theorem compute_tiles_6045 : compute_tiles 60 45 32 49 = some tiling6045 := by
  rw [compute_tiles_pos 60 45 32 49 (by norm_num) (by norm_num) (by norm_num) (by norm_num)]
  have h0 : mkTile 60 45 32 49 2 0 0 = ⟨0, 0, 32, 0, 45, some 30, some (45/2)⟩ := by
    norm_num [mkTile]
  have h1 : mkTile 60 45 32 49 2 0 1 = ⟨1, 32, 60, 0, 45, none, some (45/2)⟩ := by
    norm_num [mkTile]
  have hnt : ceilDiv (60 : Int).toNat (32 : Int).toNat = 2 := by decide
  have hnr : ceilDiv (45 : Int).toNat (49 : Int).toNat = 1 := by decide
  rw [hnt, hnr]
  simp only [List.range_succ, List.range_zero, List.nil_append, List.flatMap_cons,
    List.flatMap_nil, List.map_cons, List.map_nil, List.append_nil, List.singleton_append]
  rw [show ((60 : Int).toNat = 60) from rfl, show ((45 : Int).toNat = 45) from rfl,
    show ((32 : Int).toNat = 32) from rfl, show ((49 : Int).toNat = 49) from rfl, h0, h1]
  rfl

/-- Witness for C6 at the 60×45 example (page count, page_index sequencing
and an explicit covered cell). -/
theorem compute_tiles_spec_witness :
    tiling6045.tiles.length =
      ceilDiv (60 : Int).toNat (32 : Int).toNat * ceilDiv (45 : Int).toNat (49 : Int).toNat ∧
    (∀ (i : Nat) (t : PageTile), tiling6045.tiles[i]? = some t → t.page_index = i ∧
      t.col_end = min (t.col_start + (32 : Int).toNat) (60 : Int).toNat ∧
      t.row_end = min (t.row_start + (49 : Int).toNat) (45 : Int).toNat) ∧
    ((40 < (60 : Int).toNat ∧ 20 < (45 : Int).toNat) ↔ ∃ t ∈ tiling6045.tiles, inTile t 40 20) := by
  have h := (compute_tiles_spec 60 45 32 49).2.1 tiling6045 compute_tiles_6045
  exact ⟨h.1, h.2.2.1, h.2.2.2.2 40 20⟩

/-- Counterexample to C3 as stated: in the spec's own 60×45 example both
tiles of the single row-band carry a non-null `center_row` (a row-band's
tiles all share `row_start`/`row_end`, so the center row condition holds for
every tile of the band, not at most one). -/
theorem compute_tiles_center_row_counterexample :
    ¬ (∀ res, compute_tiles 60 45 32 49 = some res →
        ∀ t1 ∈ res.tiles, ∀ t2 ∈ res.tiles, t1.row_start = t2.row_start →
          t1.center_row.isSome → t2.center_row.isSome → t1 = t2) := by
  intro hclaim
  have h := hclaim tiling6045 compute_tiles_6045
    ⟨0, 0, 32, 0, 45, some 30, some (45/2)⟩ (by simp [tiling6045])
    ⟨1, 32, 60, 0, 45, none, some (45/2)⟩ (by simp [tiling6045])
    rfl (by simp) (by simp)
  have h01 : (0 : Nat) = 1 := congrArg PageTile.page_index h
  omega

theorem isSome_ite {α : Type} (p : Prop) [Decidable p] (a : α) :
    (if p then some a else none).isSome = true ↔ p := by
  by_cases hp : p
  · simp [hp]
  · simp [hp]

theorem band_unique (q : ℚ) (cpp w tc1 tc2 : Nat)
    (h1 : ((tc1 * cpp : Nat) : ℚ) < q) (h1e : q ≤ ((min (tc1 * cpp + cpp) w : Nat) : ℚ))
    (h2 : ((tc2 * cpp : Nat) : ℚ) < q) (h2e : q ≤ ((min (tc2 * cpp + cpp) w : Nat) : ℚ)) :
    tc1 = tc2 := by
  by_contra hne
  rcases Nat.lt_or_ge tc1 tc2 with hlt | hge
  · have hstep : min (tc1 * cpp + cpp) w ≤ tc2 * cpp := by
      calc min (tc1 * cpp + cpp) w ≤ tc1 * cpp + cpp := min_le_left _ _
        _ = (tc1 + 1) * cpp := (Nat.succ_mul tc1 cpp).symm
        _ ≤ tc2 * cpp := Nat.mul_le_mul_right _ hlt
    have hcast : ((min (tc1 * cpp + cpp) w : Nat) : ℚ) ≤ ((tc2 * cpp : Nat) : ℚ) := by
      exact_mod_cast hstep
    linarith
  · have hlt2 : tc2 < tc1 := by omega
    have hstep : min (tc2 * cpp + cpp) w ≤ tc1 * cpp := by
      calc min (tc2 * cpp + cpp) w ≤ tc2 * cpp + cpp := min_le_left _ _
        _ = (tc2 + 1) * cpp := (Nat.succ_mul tc2 cpp).symm
        _ ≤ tc1 * cpp := Nat.mul_le_mul_right _ hlt2
    have hcast : ((min (tc2 * cpp + cpp) w : Nat) : ℚ) ≤ ((tc1 * cpp : Nat) : ℚ) := by
      exact_mod_cast hstep
    linarith

/-- Amended C3: a tile carries `center_col = W/2 - col_start` exactly when
`col_start < W/2 ≤ col_end` (and analogously `center_row` with `H/2`); at
most one tile per row-band carries a non-null `center_col`, and at most one
tile per column-band carries a non-null `center_row` (the claim as frozen
swaps the two band orientations; see the counterexample). -/
theorem compute_tiles_center_spec (grid_width grid_height cols_per_page rows_per_page : Int)
    (res : TilingResult)
    (hres : compute_tiles grid_width grid_height cols_per_page rows_per_page = some res) :
    (∀ t ∈ res.tiles,
      (t.center_col = if (t.col_start : ℚ) < (grid_width.toNat : ℚ) / 2 ∧
          (grid_width.toNat : ℚ) / 2 ≤ (t.col_end : ℚ)
        then some ((grid_width.toNat : ℚ) / 2 - (t.col_start : ℚ)) else none) ∧
      (t.center_row = if (t.row_start : ℚ) < (grid_height.toNat : ℚ) / 2 ∧
          (grid_height.toNat : ℚ) / 2 ≤ (t.row_end : ℚ)
        then some ((grid_height.toNat : ℚ) / 2 - (t.row_start : ℚ)) else none)) ∧
    (∀ t1 ∈ res.tiles, ∀ t2 ∈ res.tiles, t1.row_start = t2.row_start →
      t1.center_col.isSome → t2.center_col.isSome → t1 = t2) ∧
    (∀ t1 ∈ res.tiles, ∀ t2 ∈ res.tiles, t1.col_start = t2.col_start →
      t1.center_row.isSome → t2.center_row.isSome → t1 = t2) := by
  have hnn : compute_tiles grid_width grid_height cols_per_page rows_per_page ≠ none := by
    rw [hres]; simp
  rw [ne_eq, compute_tiles_none_iff] at hnn
  push_neg at hnn
  obtain ⟨hW, hH, hc, hr⟩ := hnn
  rw [compute_tiles_pos _ _ _ _ hW hH hc hr] at hres
  have hres' := Option.some_injective _ hres
  subst hres'
  set w := grid_width.toNat with hwdef
  set h := grid_height.toNat with hhdef
  set cpp := cols_per_page.toNat with hcppdef
  set rpp := rows_per_page.toNat with hrppdef
  set ntc := ceilDiv w cpp with hntcdef
  set ntr := ceilDiv h rpp with hntrdef
  have hcpp0 : 0 < cpp := by omega
  have hrpp0 : 0 < rpp := by omega
  refine ⟨?_, ?_, ?_⟩
  · intro t ht
    rw [mem_tiles_iff] at ht
    obtain ⟨tr, tc, _, _, rfl⟩ := ht
    exact ⟨rfl, rfl⟩
  · intro t1 ht1 t2 ht2 hrow hs1 hs2
    rw [mem_tiles_iff] at ht1 ht2
    obtain ⟨tr1, tc1, _, _, rfl⟩ := ht1
    obtain ⟨tr2, tc2, _, _, rfl⟩ := ht2
    simp only [mkTile] at hrow hs1 hs2
    rw [isSome_ite] at hs1 hs2
    have htr : tr1 = tr2 := Nat.eq_of_mul_eq_mul_right hrpp0 hrow
    have htc : tc1 = tc2 := by
      refine band_unique ((w : ℚ) / 2) cpp w tc1 tc2 ?_ ?_ ?_ ?_
      · exact_mod_cast hs1.1
      · exact_mod_cast hs1.2
      · exact_mod_cast hs2.1
      · exact_mod_cast hs2.2
    rw [htr, htc]
  · intro t1 ht1 t2 ht2 hcol hs1 hs2
    rw [mem_tiles_iff] at ht1 ht2
    obtain ⟨tr1, tc1, _, _, rfl⟩ := ht1
    obtain ⟨tr2, tc2, _, _, rfl⟩ := ht2
    simp only [mkTile] at hcol hs1 hs2
    rw [isSome_ite] at hs1 hs2
    have htc : tc1 = tc2 := Nat.eq_of_mul_eq_mul_right hcpp0 hcol
    have htr : tr1 = tr2 := by
      refine band_unique ((h : ℚ) / 2) rpp h tr1 tr2 ?_ ?_ ?_ ?_
      · exact_mod_cast hs1.1
      · exact_mod_cast hs1.2
      · exact_mod_cast hs2.1
      · exact_mod_cast hs2.2
    rw [htr, htc]

/-- Witness for the amended C3 at the 60×45 example: the first tile's
`center_col` is exactly what the center condition dictates. -/
theorem compute_tiles_center_spec_witness :
    (⟨0, 0, 32, 0, 45, some 30, some (45/2)⟩ : PageTile).center_col =
      (if ((⟨0, 0, 32, 0, 45, some 30, some (45/2)⟩ : PageTile).col_start : ℚ) <
            ((60 : Int).toNat : ℚ) / 2 ∧
          ((60 : Int).toNat : ℚ) / 2 ≤ ((⟨0, 0, 32, 0, 45, some 30, some (45/2)⟩ : PageTile).col_end : ℚ)
        then some (((60 : Int).toNat : ℚ) / 2 -
          ((⟨0, 0, 32, 0, 45, some 30, some (45/2)⟩ : PageTile).col_start : ℚ))
        else none) :=
  ((compute_tiles_center_spec 60 45 32 49 tiling6045 compute_tiles_6045).1
    ⟨0, 0, 32, 0, 45, some 30, some (45/2)⟩ (by simp [tiling6045])).1

/- ----------------------------------------------------------------
   Color matching and palette selection
   (`app/domain/services/color_matching.py`).

   The LAB embedding `rgb_to_lab` evaluates irrational powers
   (`x ** 2.4`, cube roots) in IEEE doubles, which have no exact
   counterpart in this embedding, so the pipeline is parameterized by an
   arbitrary rational-valued LAB map `lab : RGB → Lab`; every structural
   property proved below holds for the real conversion in particular.
   `np.unique`-based deduplication of `select_palette` recomputes nothing
   (the matcher is a pure function), so matching deduplicated pixels and
   broadcasting back equals matching every pixel directly; the embedding
   uses the direct form, and builds the index grid by a nested map, which
   on the rectangular grids `np.array` accepts equals flatten-then-reshape.
   ---------------------------------------------------------------- -/

/-- A DMC catalog entry (`dmc_colors.DmcColor`). -/
structure DmcColor where
  number : String
  name : String
  r : Nat
  g : Nat
  b : Nat
deriving DecidableEq, Repr

def dmcDefault : DmcColor := ⟨"", "", 0, 0, 0⟩

/-- A CIE LAB triple, embedded with exact rational components. -/
abbrev Lab := ℚ × ℚ × ℚ

/-- Squared Delta-E (CIE76): the quantity `np.sum(diff ** 2)` minimized by
the batched matcher. -/
def sqDist (p q : Lab) : ℚ :=
  (p.1 - q.1)^2 + (p.2.1 - q.2.1)^2 + (p.2.2 - q.2.2)^2

def labOfDmc (lab : RGB → Lab) (c : DmcColor) : Lab := lab (c.r, c.g, c.b)

/-- `find_nearest_dmc_batch` restricted to one pixel: the first catalog
index of minimal squared Delta-E (`np.argmin` keeps the first minimum). -/
def find_nearest_dmc_batch1 (lab : RGB → Lab) (catalog : List DmcColor) (px : RGB) : Nat :=
  argminIdx (catalog.map (fun c => sqDist (lab px) (labOfDmc lab c)))

/-- Step 1 of `select_palette`: every pixel's matched catalog index, in
raster order (`np.unique` deduplication + broadcast equals the direct map). -/
def matchedIdx (lab : RGB → Lab) (catalog : List DmcColor) (pixels : List (List RGB)) : List Nat :=
  pixels.flatten.map (find_nearest_dmc_batch1 lab catalog)

/-- Step 2: the `Counter` of matched indices — keys in first-occurrence
order, each with its multiplicity. -/
def freqTable (l : List Nat) : List (Nat × Nat) :=
  (firstDedup l).map (fun k => (k, l.count k))

/-- Step 3: keep the entries with `count >= total_pixels * pct / 100`
(the Python guard `min_frequency_pct > 0.0 and total_pixels > 0`). -/
def thresholdFreq (total : Nat) (pct : ℚ) (ft : List (Nat × Nat)) : List (Nat × Nat) :=
  if 0 < pct ∧ 0 < total then
    ft.filter (fun kv => decide ((total : ℚ) * pct / 100 ≤ (kv.2 : ℚ)))
  else ft

/-- `most_common` comparison: sort by count descending; insertion sort is
stable, so equal counts keep their first-occurrence order exactly as
`Counter.most_common` does. -/
def countGE (a b : Nat × Nat) : Prop := b.2 ≤ a.2

instance : DecidableRel countGE := fun a b => Nat.decLe _ _

/-- Step 4's `frequency.most_common(n)`. -/
def mostCommon (n : Nat) (ft : List (Nat × Nat)) : List (Nat × Nat) :=
  (List.insertionSort countGE ft).take n

/-- The surviving catalog indices `top_dmc_indices`, most frequent first. -/
def survivorIdx (lab : RGB → Lab) (catalog : List DmcColor) (pixels : List (List RGB))
    (num_colors : Nat) (pct : ℚ) : List Nat :=
  (mostCommon
    (min num_colors (thresholdFreq (pixels.length * (pixels.headD []).length) pct
        (freqTable (matchedIdx lab catalog pixels))).length)
    (thresholdFreq (pixels.length * (pixels.headD []).length) pct
        (freqTable (matchedIdx lab catalog pixels)))).map Prod.fst

/-- Step 5's `dmc_to_palette_map` at one catalog index: survivors map to
their palette position, the rest to the survivor of minimal squared
Delta-E from the dropped color. -/
def remapIdx (lab : RGB → Lab) (catalog : List DmcColor) (topIdx : List Nat) (d : Nat) : Nat :=
  match posOf d topIdx with
  | some p => p
  | none => argminIdx (topIdx.map (fun i =>
      sqDist (labOfDmc lab (catalog.getD d dmcDefault)) (labOfDmc lab (catalog.getD i dmcDefault))))

/-- `color_matching.select_palette`.  `none` models the raising paths: an
empty grid or catalog (`np.argmin` of an empty axis) and an empty surviving
palette (`Palette(colors=[])` raises). -/
def select_palette (lab : RGB → Lab) (catalog : List DmcColor) (pixels : List (List RGB))
    (num_colors : Nat) (min_frequency_pct : ℚ) :
    Option (List RGB × List (List Nat) × List DmcColor) :=
  if pixels.length = 0 ∨ (pixels.headD []).length = 0 ∨ catalog.length = 0 then none
  else if (survivorIdx lab catalog pixels num_colors min_frequency_pct).length = 0 then none
  else some
    (((survivorIdx lab catalog pixels num_colors min_frequency_pct).map
        (fun i => catalog.getD i dmcDefault)).map (fun c => (c.r, c.g, c.b)),
     pixels.map (fun row => row.map (fun px =>
       remapIdx lab catalog (survivorIdx lab catalog pixels num_colors min_frequency_pct)
         (find_nearest_dmc_batch1 lab catalog px))),
     (survivorIdx lab catalog pixels num_colors min_frequency_pct).map
        (fun i => catalog.getD i dmcDefault))

theorem getD_map_lt {α β : Type} (f : α → β) (l : List α) (i : Nat) (d' : β) (d : α)
    (hi : i < l.length) : (l.map f).getD i d' = f (l.getD i d) := by
  rw [List.getD_eq_getElem?_getD, List.getElem?_map, List.getElem?_eq_getElem hi]
  rw [List.getD_eq_getElem?_getD, List.getElem?_eq_getElem hi]
  rfl

theorem survivorIdx_length_le (lab : RGB → Lab) (catalog : List DmcColor)
    (pixels : List (List RGB)) (num_colors : Nat) (pct : ℚ) :
    (survivorIdx lab catalog pixels num_colors pct).length ≤ num_colors := by
  unfold survivorIdx mostCommon
  rw [List.length_map, List.length_take, List.length_insertionSort]
  omega

theorem remapIdx_lt (lab : RGB → Lab) (catalog : List DmcColor) (topIdx : List Nat) (d : Nat)
    (h : topIdx ≠ []) : remapIdx lab catalog topIdx d < topIdx.length := by
  unfold remapIdx
  cases hp : posOf d topIdx with
  | some p => exact posOf_lt_length d topIdx p hp
  | none =>
      have hmap : (topIdx.map (fun i =>
          sqDist (labOfDmc lab (catalog.getD d dmcDefault))
            (labOfDmc lab (catalog.getD i dmcDefault)))) ≠ [] := by
        intro hnil
        have := congrArg List.length hnil
        simp at this
        exact h this
      have := argminIdx_lt _ hmap
      rw [List.length_map] at this
      exact this

/-- C1: whenever `select_palette` succeeds on a non-empty rectangular grid
(at least one matched color survives the threshold), the palette, index
grid and DMC list satisfy: `len(dmc_list) = len(palette.colors) ≤
num_colors`, `palette.colors[i] = (dmc_list[i].r, .g, .b)`, every index
grid value lies in `[0, len(palette.colors))`, and the index grid has
exactly the input grid's height and width. -/
theorem select_palette_invariants (lab : RGB → Lab) (catalog : List DmcColor)
    (pixels : List (List RGB)) (num_colors : Nat) (pct : ℚ) (w : Nat)
    (hrect : ∀ row ∈ pixels, row.length = w)
    (pal : List RGB) (grid : List (List Nat)) (dmc : List DmcColor)
    (hres : select_palette lab catalog pixels num_colors pct = some (pal, grid, dmc)) :
    dmc.length = pal.length ∧
    pal.length ≤ num_colors ∧
    (∀ i : Nat, pal[i]? = (dmc[i]?).map (fun c => (c.r, c.g, c.b))) ∧
    (∀ row ∈ grid, ∀ v ∈ row, v < pal.length) ∧
    grid.length = pixels.length ∧
    (∀ row ∈ grid, row.length = w) := by
  unfold select_palette at hres
  by_cases hguard : pixels.length = 0 ∨ (pixels.headD []).length = 0 ∨ catalog.length = 0
  · rw [if_pos hguard] at hres
    exact absurd hres (by simp)
  rw [if_neg hguard] at hres
  by_cases htop0 : (survivorIdx lab catalog pixels num_colors pct).length = 0
  · rw [if_pos htop0] at hres
    exact absurd hres (by simp)
  rw [if_neg htop0] at hres
  have hres' := Option.some_injective _ hres
  have hpal : ((survivorIdx lab catalog pixels num_colors pct).map
      (fun i => catalog.getD i dmcDefault)).map (fun c => (c.r, c.g, c.b)) = pal :=
    congrArg Prod.fst hres'
  have hgrid : pixels.map (fun row => row.map (fun px =>
      remapIdx lab catalog (survivorIdx lab catalog pixels num_colors pct)
        (find_nearest_dmc_batch1 lab catalog px))) = grid :=
    congrArg (fun x => x.2.1) hres'
  have hdmc : (survivorIdx lab catalog pixels num_colors pct).map
      (fun i => catalog.getD i dmcDefault) = dmc :=
    congrArg (fun x => x.2.2) hres'
  have hpallen : pal.length = (survivorIdx lab catalog pixels num_colors pct).length := by
    rw [← hpal]
    simp
  refine ⟨?_, ?_, ?_, ?_, ?_, ?_⟩
  · rw [← hpal, ← hdmc]
    simp
  · rw [hpallen]
    exact survivorIdx_length_le lab catalog pixels num_colors pct
  · intro i
    rw [← hpal, ← hdmc, List.getElem?_map]
  · intro row hrow v hv
    rw [← hgrid] at hrow
    rw [List.mem_map] at hrow
    obtain ⟨row0, _, rfl⟩ := hrow
    rw [List.mem_map] at hv
    obtain ⟨px, _, rfl⟩ := hv
    rw [hpallen]
    exact remapIdx_lt lab catalog _ _ (by intro hnil; rw [hnil] at htop0; exact htop0 rfl)
  · rw [← hgrid]
    simp
  · intro row hrow
    rw [← hgrid] at hrow
    rw [List.mem_map] at hrow
    obtain ⟨row0, hrow0, rfl⟩ := hrow
    rw [List.length_map]
    exact hrect row0 hrow0

/-- A concrete rational LAB map used for instantiations (the structural
theorems above hold for every `lab`, in particular the real sRGB→LAB
conversion). -/
def labQ : RGB → Lab := fun p => ((p.1 : ℚ), (p.2.1 : ℚ), (p.2.2 : ℚ))

/-- Modelled from the spec: the DMC catalog
(`app/domain/data/dmc_colors.py`, 489 entries) is not among the available
sources; the spec fixes two of its entries — `"310" Black (0,0,0)` and
`"B5200" Snow White (255,255,255)` — which form this minimal concrete
catalog for instantiations. -/
def specCatalog : List DmcColor :=
  [⟨"310", "Black", 0, 0, 0⟩, ⟨"B5200", "Snow White", 255, 255, 255⟩]

/-- The spec's frequency-threshold example: a 10-pixel grid, 9 pixels of
color A (black) and 1 of color B (white). -/
def pixels10 : List (List RGB) :=
  [[(0, 0, 0), (0, 0, 0), (0, 0, 0), (0, 0, 0), (0, 0, 0),
    (0, 0, 0), (0, 0, 0), (0, 0, 0), (0, 0, 0), (255, 255, 255)]]

theorem nearest_black : find_nearest_dmc_batch1 labQ specCatalog (0, 0, 0) = 0 := by
  norm_num [find_nearest_dmc_batch1, specCatalog, labOfDmc, labQ, sqDist, argminIdx, argminGo]

theorem nearest_white : find_nearest_dmc_batch1 labQ specCatalog (255, 255, 255) = 1 := by
  norm_num [find_nearest_dmc_batch1, specCatalog, labOfDmc, labQ, sqDist, argminIdx, argminGo]

theorem matched10 : matchedIdx labQ specCatalog pixels10 = [0, 0, 0, 0, 0, 0, 0, 0, 0, 1] := by
  simp only [matchedIdx, pixels10, List.flatten_cons, List.flatten_nil, List.append_nil,
    List.map_cons, List.map_nil]
  rw [nearest_black, nearest_white]

theorem freq10 : freqTable [0, 0, 0, 0, 0, 0, 0, 0, 0, 1] = [(0, 9), (1, 1)] := by decide

theorem thresh10 : thresholdFreq 10 15 [(0, 9), (1, 1)] = [(0, 9)] := by
  norm_num [thresholdFreq, List.filter]

theorem survivor10 : survivorIdx labQ specCatalog pixels10 10 15 = [0] := by
  unfold survivorIdx
  rw [matched10, freq10]
  have hl : pixels10.length * (pixels10.headD []).length = 10 := by decide
  rw [hl, thresh10]
  decide

theorem select10 : select_palette labQ specCatalog pixels10 10 15 =
    some ([(0, 0, 0)], [[0, 0, 0, 0, 0, 0, 0, 0, 0, 0]], [⟨"310", "Black", 0, 0, 0⟩]) := by
  unfold select_palette
  rw [survivor10]
  rw [if_neg (by decide), if_neg (by decide)]
  simp only [pixels10, List.map_cons, List.map_nil, nearest_black, nearest_white]
  norm_num [remapIdx, posOf, argminIdx, argminGo, specCatalog, dmcDefault,
    List.getD_cons_zero]

/-- Witness for C1 at the concrete spec-modelled catalog and the 1×10
example grid. -/
theorem select_palette_invariants_witness :
    ([(0, 0, 0)] : List RGB).length ≤ 10 ∧
    (∀ row ∈ [[0, 0, 0, 0, 0, 0, 0, 0, 0, 0]], ∀ v ∈ row, v < ([(0, 0, 0)] : List RGB).length) ∧
    (∀ row ∈ [[0, 0, 0, 0, 0, 0, 0, 0, 0, 0]], row.length = 10) := by
  have h := select_palette_invariants labQ specCatalog pixels10 10 15 10
    (by intro row hrow; simp [pixels10] at hrow; subst hrow; rfl)
    [(0, 0, 0)] [[0, 0, 0, 0, 0, 0, 0, 0, 0, 0]] [⟨"310", "Black", 0, 0, 0⟩] select10
  exact ⟨h.2.1, h.2.2.2.1, h.2.2.2.2.2⟩

/-- C4: with `min_frequency_pct > 0`, every surviving DMC color's frequency
meets the threshold `total_pixels * pct / 100` (colors strictly below it
are excluded), the pixels of every excluded color are remapped to the
surviving color of minimal squared Delta-E from the excluded color, and on
the spec's 10-pixel example (9 of color A, 1 of color B, `pct = 15`) the
palette is exactly one color with every index grid cell pointing at it. -/
theorem select_palette_threshold (lab : RGB → Lab) (catalog : List DmcColor)
    (pixels : List (List RGB)) (num_colors : Nat) (pct : ℚ) (w : Nat)
    (hrect : ∀ row ∈ pixels, row.length = w) (hpct : 0 < pct)
    (pal : List RGB) (grid : List (List Nat)) (dmc : List DmcColor)
    (hres : select_palette lab catalog pixels num_colors pct = some (pal, grid, dmc)) :
    (∀ d ∈ survivorIdx lab catalog pixels num_colors pct,
      ((pixels.length * (pixels.headD []).length : Nat) : ℚ) * pct / 100 ≤
        ((matchedIdx lab catalog pixels).count d : ℚ)) ∧
    (∀ r c : Nat, r < pixels.length → c < w →
      find_nearest_dmc_batch1 lab catalog ((pixels.getD r []).getD c (0, 0, 0)) ∉
          survivorIdx lab catalog pixels num_colors pct →
      (grid.getD r []).getD c 0 =
        argminIdx ((survivorIdx lab catalog pixels num_colors pct).map (fun i =>
          sqDist
            (labOfDmc lab (catalog.getD
              (find_nearest_dmc_batch1 lab catalog ((pixels.getD r []).getD c (0, 0, 0)))
              dmcDefault))
            (labOfDmc lab (catalog.getD i dmcDefault))))) ∧
    select_palette labQ specCatalog pixels10 10 15 =
      some ([(0, 0, 0)], [[0, 0, 0, 0, 0, 0, 0, 0, 0, 0]], [⟨"310", "Black", 0, 0, 0⟩]) := by
  refine ⟨?_, ?_, select10⟩
  · intro d hd
    unfold survivorIdx at hd
    rw [List.mem_map] at hd
    obtain ⟨kv, hkv, rfl⟩ := hd
    have hkv2 : kv ∈ thresholdFreq (pixels.length * (pixels.headD []).length) pct
        (freqTable (matchedIdx lab catalog pixels)) := by
      have h1 : kv ∈ List.insertionSort countGE
          (thresholdFreq (pixels.length * (pixels.headD []).length) pct
            (freqTable (matchedIdx lab catalog pixels))) :=
        List.take_subset _ _ hkv
      exact (List.perm_insertionSort countGE _).mem_iff.mp h1
    by_cases htot : 0 < pixels.length * (pixels.headD []).length
    · rw [thresholdFreq, if_pos ⟨hpct, htot⟩, List.mem_filter] at hkv2
      obtain ⟨hft, hpred⟩ := hkv2
      rw [decide_eq_true_eq] at hpred
      have hsnd : kv.2 = (matchedIdx lab catalog pixels).count kv.1 := by
        rw [freqTable, List.mem_map] at hft
        obtain ⟨k, _, rfl⟩ := hft
        rfl
      rw [← hsnd]
      exact hpred
    · have htot0 : pixels.length * (pixels.headD []).length = 0 := by omega
      rw [htot0]
      push_cast
      rw [zero_mul, zero_div]
      positivity
  · intro r c hr hc hnot
    unfold select_palette at hres
    by_cases hguard : pixels.length = 0 ∨ (pixels.headD []).length = 0 ∨ catalog.length = 0
    · rw [if_pos hguard] at hres
      exact absurd hres (by simp)
    rw [if_neg hguard] at hres
    by_cases htop0 : (survivorIdx lab catalog pixels num_colors pct).length = 0
    · rw [if_pos htop0] at hres
      exact absurd hres (by simp)
    rw [if_neg htop0] at hres
    have hres' := Option.some_injective _ hres
    have hgrid : pixels.map (fun row => row.map (fun px =>
        remapIdx lab catalog (survivorIdx lab catalog pixels num_colors pct)
          (find_nearest_dmc_batch1 lab catalog px))) = grid :=
      congrArg (fun x => x.2.1) hres'
    have hrowget : grid.getD r [] = (pixels.getD r []).map (fun px =>
        remapIdx lab catalog (survivorIdx lab catalog pixels num_colors pct)
          (find_nearest_dmc_batch1 lab catalog px)) := by
      rw [← hgrid]
      exact getD_map_lt _ pixels r [] [] hr
    have hrmem : pixels.getD r [] ∈ pixels := by
      rw [List.getD_eq_getElem?_getD, List.getElem?_eq_getElem hr]
      exact List.getElem_mem hr
    have hclen : c < (pixels.getD r []).length := by
      rw [hrect _ hrmem]
      exact hc
    rw [hrowget, getD_map_lt _ _ c 0 (0, 0, 0) hclen]
    unfold remapIdx
    rw [(posOf_eq_none_iff _ _).mpr hnot]

/-- Witness for C4 at the spec-modelled catalog and the 1×10 example: the
surviving black meets the 15% threshold. -/
theorem select_palette_threshold_witness :
    ((pixels10.length * (pixels10.headD []).length : Nat) : ℚ) * 15 / 100 ≤
      ((matchedIdx labQ specCatalog pixels10).count 0 : ℚ) :=
  (select_palette_threshold labQ specCatalog pixels10 10 15 10
    (by intro row hrow; simp [pixels10] at hrow; subst hrow; rfl) (by norm_num)
    [(0, 0, 0)] [[0, 0, 0, 0, 0, 0, 0, 0, 0, 0]] [⟨"310", "Black", 0, 0, 0⟩] select10).1
    0 (by rw [survivor10]; simp)
